import Mathlib

/-!
Shallow embedding of the `clock` Go package's virtual-time engine
(`clock.go`, `timer.go`, and the current `fakeTicker`), together with
proofs about the claims of its specification.

Modelling conventions:
* `time.Time` and `time.Duration` are nanosecond counts, embedded as `Int`.
  Go's zero `time.Time` (January 1, year 1) is `0`; `time.Unix(0, 0)` is
  `unixEpoch` nanoseconds later.  `t.Before u` is `t < u`, `t.After u` is
  `u < t`, `t.Add d` is `t + d`.
* The `Mock`'s slice `m.timers` of `Executer` interface values is embedded
  as a list of identifiers (`registry`) together with a store mapping each
  identifier to the current state of the `fakeTimer` or `fakeTicker`
  object it points to.  The store models the heap: entries are never
  deleted, deregistering only removes the identifier from `registry`.
* `sort.Sort(m)` followed by taking `m.timers[0]` in `tickNext` is embedded
  as selecting an element of the registry with minimal `NextExecution`
  (ties resolved towards the front of the list; Go's unstable sort makes
  no promise about ties either).
* Channels of capacity 1 are embedded as lists of pending values.  The
  ticker's `select`-with-default send is a try-send that increments a
  dropped-tick counter when the buffer is full.  The timer's plain send
  `f.ch <- f.due` blocks when the buffer is full: this is modelled by the
  drain step returning a `blocked` outcome, which propagates as `none`.
* The drain loop `tick` runs on explicit fuel; `none` means the loop
  either blocked on a channel send or did not finish within the given
  fuel.  `AfterFunc` callbacks are opaque: executing one only increments
  an invocation counter.
-/

namespace ClockMock

/-- Nanoseconds since Go's zero time (January 1, year 1 UTC). -/
abbrev Time := Int

/-- Nanoseconds, as Go's `time.Duration`. -/
abbrev Duration := Int

/-- The value of `time.Unix(0, 0)` in nanoseconds since Go's zero time:
62135596800 seconds. -/
def unixEpoch : Time := 62135596800000000000

/-- State of a `fakeTimer` (timer.go).  `hasChan = true` models `ch != nil`
(timers made by `NewTimer`/`After`); `hasChan = false` models the
`AfterFunc` variant whose `Execute` calls `fn()`, counted by `fnCount`.
`chBuf` is the content of the capacity-1 channel `ch`. -/
structure FakeTimer where
  hasChan : Bool
  chBuf : List Time
  fnCount : Nat
  due : Time
  stopped : Bool
deriving DecidableEq, Repr

/-- State of a `fakeTicker` (current version).  `chBuf` is the content of
the capacity-1 channel `ch`; `dropped` counts ticks discarded by the
`default` branch of the `select` in `Execute`. -/
structure FakeTicker where
  chBuf : List Time
  dropped : Nat
  d : Duration
  next : Time
  stopped : Bool
deriving DecidableEq, Repr

/-- A heap object implementing the `Executer` interface: either a
`fakeTimer` or a `fakeTicker`. -/
inductive ExecData where
  | timer : FakeTimer → ExecData
  | ticker : FakeTicker → ExecData
deriving DecidableEq, Repr

/-- `NextExecution()` of an `Executer`: `f.due` for a timer, `f.next` for a
ticker. -/
def ExecData.nextExecution : ExecData → Time
  | .timer f => f.due
  | .ticker f => f.next

/-- Lookup in the heap store (first entry with the given identifier). -/
def storeGet : List (Nat × ExecData) → Nat → Option ExecData
  | [], _ => none
  | (k, v) :: rest, id => if k = id then some v else storeGet rest id

/-- In-place update of the first store entry with the given identifier. -/
def storeSet : List (Nat × ExecData) → Nat → ExecData → List (Nat × ExecData)
  | [], _, _ => []
  | (k, v) :: rest, id, e =>
    if k = id then (k, e) :: rest else (k, v) :: storeSet rest id e

/-- State of a `Mock` (clock.go): the current time `now`, the slice
`m.timers` of registered `Executer`s (as the identifier list `registry`),
the heap `store`, and a counter for fresh identifiers. -/
structure Mock where
  now : Time
  registry : List Nat
  store : List (Nat × ExecData)
  nextId : Nat
deriving DecidableEq, Repr

/-- Dereference an `Executer` identifier. -/
def Mock.find (m : Mock) (id : Nat) : Option ExecData := storeGet m.store id

/-- Overwrite the heap object behind `id`. -/
def Mock.setStore (m : Mock) (id : Nat) (e : ExecData) : Mock :=
  { m with store := storeSet m.store id e }

/-- `Mock.removeTimer`: remove the first occurrence of the given
`Executer` from `m.timers`. -/
def Mock.removeTimer (m : Mock) (id : Nat) : Mock :=
  { m with registry := m.registry.erase id }

/-- `Mock.addTimer`: append an `Executer` to `m.timers`. -/
def Mock.addReg (m : Mock) (id : Nat) : Mock :=
  { m with registry := m.registry ++ [id] }

/-- Selection of a registered `Executer` with minimal `NextExecution`,
embedding `sort.Sort(m)` followed by `m.timers[0]` in `tickNext`.
Identifiers that do not resolve are skipped (they never occur in reachable
states). -/
def selectMinAux (m : Mock) : List Nat → Option (Nat × Time)
  | [] => none
  | id :: rest =>
    match m.find id with
    | none => selectMinAux m rest
    | some e =>
      match selectMinAux m rest with
      | none => some (id, e.nextExecution)
      | some (jd, tj) =>
        if e.nextExecution ≤ tj then some (id, e.nextExecution) else some (jd, tj)

/-- The registered `Executer` with the smallest `NextExecution`, if any. -/
def Mock.selectMin (m : Mock) : Option (Nat × Time) := selectMinAux m m.registry

/-- `Execute` of the object behind `id` (the `t` argument of Go's
`Execute(t time.Time)` is unused by both implementations and therefore
omitted).  Returns `none` when the timer's blocking send `f.ch <- f.due`
finds the capacity-1 buffer full. -/
def Mock.execute (m : Mock) (id : Nat) : Option Mock :=
  match m.find id with
  | none => some m
  | some (.timer f) =>
    if f.stopped then some m
    else if f.hasChan then
      if f.chBuf = [] then
        some (((m.setStore id (.timer
          { f with chBuf := [f.due], stopped := true }))).removeTimer id)
      else none
    else
      some (((m.setStore id (.timer
        { f with fnCount := f.fnCount + 1, stopped := true }))).removeTimer id)
  | some (.ticker f) =>
    if f.stopped then some m
    else
      some (m.setStore id (.ticker
        (if f.chBuf = [] then
          { f with next := f.next + f.d, chBuf := [f.next] }
         else
          { f with next := f.next + f.d, dropped := f.dropped + 1 })))

/-- Outcome of one `tickNext` step: the drain is finished, or one
`Executer` fired (recording its selected `NextExecution`), or a channel
send blocked. -/
inductive StepResult where
  | done : Mock → StepResult
  | fired : Time → Mock → StepResult
  | blocked : StepResult
deriving DecidableEq, Repr

/-- `Mock.tickNext`: sort, inspect the earliest `Executer`; stop if the
registry is empty or its `NextExecution` is after `t`, otherwise execute
it. -/
def Mock.tickNext (m : Mock) (t : Time) : StepResult :=
  match m.selectMin with
  | none => .done m
  | some (id, ti) =>
    if t < ti then .done m
    else
      match m.execute id with
      | none => .blocked
      | some m2 => .fired ti m2

/-- `Mock.tick` instrumented with the list of fire times selected by the
successive `tickNext` steps.  `none` means a blocked send or exhausted
fuel. -/
def Mock.tickTrace (m : Mock) (t : Time) : Nat → Option (List Time × Mock)
  | 0 => none
  | fuel + 1 =>
    match m.tickNext t with
    | .done m2 => some ([], m2)
    | .blocked => none
    | .fired ti m2 => (m2.tickTrace t fuel).map (fun p => (ti :: p.1, p.2))

/-- `Mock.tick`: run `tickNext` until it reports no more due work. -/
def Mock.tick (m : Mock) (t : Time) (fuel : Nat) : Option Mock :=
  (m.tickTrace t fuel).map (fun p => p.2)

/-- `Mock.Forward`: advance `now` by `d`, then drain. -/
def Mock.Forward (m : Mock) (d : Duration) (fuel : Nat) : Option Mock :=
  Mock.tick { m with now := m.now + d } (m.now + d) fuel

/-- `Mock.Forward` instrumented with the trace of fire times. -/
def Mock.forwardTrace (m : Mock) (d : Duration) (fuel : Nat) :
    Option (List Time × Mock) :=
  Mock.tickTrace { m with now := m.now + d } (m.now + d) fuel

/-- `Mock.Set`: set `now` to `t`, then drain. -/
def Mock.Set (m : Mock) (t : Time) (fuel : Nat) : Option Mock :=
  Mock.tick { m with now := t } t fuel

/-- One step of `RunUntilDone`'s scan over `m.timers`: keep the larger of
the accumulator and the `fakeTimer`'s `NextExecution`; skip tickers (the
failed type assertion). -/
def dueFoldStep (m : Mock) (acc : Time) (id : Nat) : Time :=
  match m.find id with
  | some (.timer f) => if acc < f.due then f.due else acc
  | _ => acc

/-- The target time computed by `Mock.RunUntilDone`: starting from Go's
zero `time.Time` (the zero value of `var last time.Time`), the maximum
`NextExecution` over the registered `fakeTimer`s (tickers are skipped by
the type assertion). -/
def Mock.lastTimerDue (m : Mock) : Time :=
  m.registry.foldl (dueFoldStep m) 0

/-- `Mock.RunUntilDone`: `Set` the clock to `lastTimerDue`. -/
def Mock.RunUntilDone (m : Mock) (fuel : Nat) : Option Mock :=
  m.Set m.lastTimerDue fuel

/-- `NewMock`: the fresh mock, at Unix timestamp 0 with no registered
`Executer`s. -/
def NewMock : Mock :=
  { now := unixEpoch, registry := [], store := [], nextId := 0 }

/-- `Mock.fakeTimer` plus the channel/callback setup done by its callers:
allocate a `fakeTimer` due at `now + d` and register it. -/
def Mock.newFakeTimer (m : Mock) (d : Duration) (hc : Bool) : Nat × Mock :=
  (m.nextId,
   { m with
     store := m.store ++
       [(m.nextId, .timer
         { hasChan := hc, chBuf := [], fnCount := 0, due := m.now + d,
           stopped := false })],
     registry := m.registry ++ [m.nextId],
     nextId := m.nextId + 1 })

/-- `Mock.NewTimer`: a registered `fakeTimer` with a capacity-1 channel. -/
def Mock.NewTimer (m : Mock) (d : Duration) : Nat × Mock := m.newFakeTimer d true

/-- `Mock.AfterFunc`: a registered `fakeTimer` with `ch = nil` and a
callback. -/
def Mock.AfterFunc (m : Mock) (d : Duration) : Nat × Mock := m.newFakeTimer d false

/-- `Mock.NewTicker`: a registered `fakeTicker` with interval `d`, first
fire at `now + d`, and a capacity-1 channel.  Note: no validation of `d`
is performed. -/
def Mock.NewTicker (m : Mock) (d : Duration) : Nat × Mock :=
  (m.nextId,
   { m with
     store := m.store ++
       [(m.nextId, .ticker
         { chBuf := [], dropped := 0, d := d, next := m.now + d,
           stopped := false })],
     registry := m.registry ++ [m.nextId],
     nextId := m.nextId + 1 })

/-- `fakeTimer.Stop`: deregister, then report and set the stopped flag. -/
def Mock.timerStop (m : Mock) (id : Nat) : Bool × Mock :=
  let m1 := m.removeTimer id
  match m1.find id with
  | some (.timer f) =>
    if f.stopped then (false, m1)
    else (true, m1.setStore id (.timer { f with stopped := true }))
  | _ => (false, m1)

/-- `fakeTimer.Reset`: move `due` to `now + d`; if the timer was stopped,
clear the flag and re-register it, reporting `false`; otherwise report
`true`. -/
def Mock.timerReset (m : Mock) (id : Nat) (d : Duration) : Bool × Mock :=
  match m.find id with
  | some (.timer f) =>
    if f.stopped then
      (false, ((m.setStore id (.timer
        { f with due := m.now + d, stopped := false })).addReg id))
    else
      (true, m.setStore id (.timer { f with due := m.now + d }))
  | _ => (false, m)

/-- `fakeTicker.Stop`: set the stopped flag and deregister. -/
def Mock.tickerStop (m : Mock) (id : Nat) : Mock :=
  match m.find id with
  | some (.ticker f) =>
    (m.setStore id (.ticker { f with stopped := true })).removeTimer id
  | _ => m

/-- A consumer receive from a timer's channel. -/
def Mock.recvTimer (m : Mock) (id : Nat) : Option (Time × Mock) :=
  match m.find id with
  | some (.timer f) =>
    match f.chBuf with
    | [] => none
    | v :: rest => some (v, m.setStore id (.timer { f with chBuf := rest }))
  | _ => none

/-- A consumer receive from a ticker's channel. -/
def Mock.recvTicker (m : Mock) (id : Nat) : Option (Time × Mock) :=
  match m.find id with
  | some (.ticker f) =>
    match f.chBuf with
    | [] => none
    | v :: rest => some (v, m.setStore id (.ticker { f with chBuf := rest }))
  | _ => none

/-- A sequence of `Forward` calls, each with the given fuel. -/
def Mock.forwardSeq (m : Mock) (fuel : Nat) : List Duration → Option Mock
  | [] => some m
  | d :: ds =>
    match m.Forward d fuel with
    | none => none
    | some m1 => m1.forwardSeq fuel ds

/-- `N` rounds of a consumer that keeps up with a ticker: each round
advances the clock by `I` and then receives one value from ticker 0's
channel, collecting the received values. -/
def tickerRounds (I : Duration) : Nat → Mock → Option (List Time × Mock)
  | 0, m => some ([], m)
  | n + 1, m =>
    match m.Forward I 2 with
    | none => none
    | some m1 =>
      match m1.recvTicker 0 with
      | none => none
      | some (v, m2) =>
        (tickerRounds I n m2).map (fun p => (v :: p.1, p.2))

/-- The spec's programming contract for tickers: a non-negative interval
(the spec in fact requires a positive one). -/
def tickerIntervalOK : ExecData → Prop
  | .ticker f => 0 ≤ f.d
  | .timer _ => True

instance (e : ExecData) : Decidable (tickerIntervalOK e) :=
  match e with
  | .ticker f => inferInstanceAs (Decidable (0 ≤ f.d))
  | .timer _ => inferInstanceAs (Decidable True)

/-- Every ticker object in the heap has a non-negative interval. -/
def Mock.wfTickers (m : Mock) : Prop := ∀ p ∈ m.store, tickerIntervalOK p.2

instance (m : Mock) : Decidable m.wfTickers :=
  inferInstanceAs (Decidable (∀ p ∈ m.store, tickerIntervalOK p.2))

/-- Every registered heap object's `NextExecution` is at least `c`. -/
def Mock.registryBound (m : Mock) (c : Time) : Prop :=
  ∀ j ∈ m.registry, ∀ e, m.find j = some e → c ≤ e.nextExecution

/-- Conditions on a single registered object under which the drain loop
neither blocks nor diverges: it is not stopped; a channel timer has no
undelivered value buffered; a ticker has a positive interval. -/
def registeredOK : ExecData → Prop
  | .timer f => f.stopped = false ∧ (f.hasChan = true → f.chBuf = [])
  | .ticker f => f.stopped = false ∧ 0 < f.d

instance (e : ExecData) : Decidable (registeredOK e) :=
  match e with
  | .timer f =>
    inferInstanceAs (Decidable (f.stopped = false ∧ (f.hasChan = true → f.chBuf = [])))
  | .ticker f => inferInstanceAs (Decidable (f.stopped = false ∧ 0 < f.d))

/-- The registered object behind `j` resolves and satisfies
`registeredOK`. -/
def Mock.regEntryOK (m : Mock) (j : Nat) : Prop :=
  (m.find j).elim False registeredOK

instance (m : Mock) (j : Nat) : Decidable (m.regEntryOK j) :=
  match h : m.find j with
  | none => isFalse (by simp [Mock.regEntryOK, h])
  | some e => decidable_of_iff (registeredOK e) (by simp [Mock.regEntryOK, h])

/-- States of the engine from which a drain can neither block nor
diverge: unique registrations, each resolving to a `registeredOK`
object. -/
def Mock.goodState (m : Mock) : Prop :=
  m.registry.Nodup ∧ ∀ j ∈ m.registry, m.regEntryOK j

instance (m : Mock) : Decidable m.goodState :=
  inferInstanceAs (Decidable (m.registry.Nodup ∧ ∀ j ∈ m.registry, m.regEntryOK j))

/-- Number of remaining fires of a single object before deadline `t`: one
for a due timer, and one per whole interval the deadline lies past a
ticker's next fire time. -/
def fireBudget (t : Time) : ExecData → Nat
  | .timer f => if f.due ≤ t then 1 else 0
  | .ticker f => ((t - f.next) / f.d + 1).toNat

/-- Total number of remaining fires of a drain towards deadline `t`; the
decreasing measure of the drain loop. -/
def Mock.fireMeasure (m : Mock) (t : Time) : Nat :=
  (m.registry.map (fun j => ((m.find j).map (fireBudget t)).getD 0)).sum

/-- A fresh mock carrying one pending channel timer due at `u`, with
current time `n`: the state reached by `NewTimer` before the due time. -/
def timerPending (n u : Time) : Mock :=
  { now := n, registry := [0],
    store := [(0, .timer
      { hasChan := true, chBuf := [], fnCount := 0, due := u, stopped := false })],
    nextId := 1 }

/-- The state `timerPending n u` reaches once its timer has fired: the due
time sits undelivered in the channel, the timer is stopped and
deregistered. -/
def timerFired (n u : Time) : Mock :=
  { now := n, registry := [],
    store := [(0, .timer
      { hasChan := true, chBuf := [u], fnCount := 0, due := u, stopped := true })],
    nextId := 1 }

/-- A single channel timer that is stopped and deregistered with an empty
channel: the state of `timerPending n u` after Stop, and of
`timerFired n u` after the consumer drains the delivered value. -/
def timerInert (n u : Time) : Mock :=
  { now := n, registry := [],
    store := [(0, .timer
      { hasChan := true, chBuf := [], fnCount := 0, due := u, stopped := true })],
    nextId := 1 }

/-- A fresh mock carrying one pending `AfterFunc` timer due at `u`, whose
callback ran `k` times so far. -/
def fnPending (n u : Time) (k : Nat) : Mock :=
  { now := n, registry := [0],
    store := [(0, .timer
      { hasChan := false, chBuf := [], fnCount := k, due := u, stopped := false })],
    nextId := 1 }

/-- The state `fnPending` reaches after firing: the callback ran `k`
times, the timer is stopped and deregistered. -/
def fnFired (n u : Time) (k : Nat) : Mock :=
  { now := n, registry := [],
    store := [(0, .timer
      { hasChan := false, chBuf := [], fnCount := k, due := u, stopped := true })],
    nextId := 1 }

/-- A fresh mock carrying one running ticker with interval `I`, next fire
time `c`, channel content `buf` and `drop` dropped ticks. -/
def tickerMock (n c : Time) (I : Duration) (buf : List Time) (drop : Nat) : Mock :=
  { now := n, registry := [0],
    store := [(0, .ticker
      { chBuf := buf, dropped := drop, d := I, next := c, stopped := false })],
    nextId := 1 }

/-- The arithmetic sequence of fire times `c, c + I, ..., c + (N-1)*I`: the
trace of a ticker that fires `N` times in one drain. -/
def tickTimes (c I : Time) : Nat → List Time
  | 0 => []
  | n + 1 => c :: tickTimes (c + I) I n

/-- The state reached from a fresh mock by NewTimer(0), Forward(0) (which
fires the timer, leaving its due time undelivered in the capacity-1
channel) and Reset(0): the timer is re-registered and due, but its channel
is still full. -/
def resetAfterFire : Mock :=
  { now := unixEpoch, registry := [0],
    store := [(0, .timer
      { hasChan := true, chBuf := [unixEpoch], fnCount := 0,
        due := unixEpoch, stopped := false })],
    nextId := 1 }

/-- Start state of the C2 witness drain: a channel timer due at 10 and a
ticker of interval 3 first firing at 3, clock at 0. -/
def c2Start : Mock :=
  { now := 0, registry := [0, 1],
    store := [(0, .timer { hasChan := true, chBuf := [], fnCount := 0,
                           due := 10, stopped := false }),
              (1, .ticker { chBuf := [], dropped := 0, d := 3, next := 3,
                            stopped := false })],
    nextId := 2 }

/-- End state of the C2 witness drain to deadline 10. -/
def c2Final : Mock :=
  { now := 0, registry := [1],
    store := [(0, .timer { hasChan := true, chBuf := [10], fnCount := 0,
                           due := 10, stopped := true }),
              (1, .ticker { chBuf := [3], dropped := 2, d := 3, next := 12,
                            stopped := false })],
    nextId := 2 }

/-- Final state of the C9 witness: the single timer has fired during
RunUntilDone. -/
def c9Final : Mock :=
  { now := unixEpoch + 5, registry := [],
    store := [(0, .timer { hasChan := true, chBuf := [unixEpoch + 5],
                           fnCount := 0, due := unixEpoch + 5, stopped := true })],
    nextId := 1 }

theorem storeGet_set_self {l : List (Nat × ExecData)} {id : Nat} {v : ExecData}
    (e : ExecData) (h : storeGet l id = some v) :
    storeGet (storeSet l id e) id = some e := by
  induction l with
  | nil => simp [storeGet] at h
  | cons p rest ih =>
    obtain ⟨k, w⟩ := p
    by_cases hk : k = id
    · simp [storeGet, storeSet, hk]
    · simp only [storeGet, storeSet, if_neg hk] at h ⊢
      exact ih h

theorem storeGet_set_ne {l : List (Nat × ExecData)} {id j : Nat} (e : ExecData)
    (h : j ≠ id) : storeGet (storeSet l id e) j = storeGet l j := by
  induction l with
  | nil => simp [storeSet]
  | cons p rest ih =>
    obtain ⟨k, w⟩ := p
    by_cases hk : k = id
    · subst hk
      have hkj : ¬(k = j) := fun hh => h hh.symm
      simp [storeGet, storeSet, if_neg hkj]
    · simp only [storeGet, storeSet, if_neg hk]
      by_cases hkj : k = j <;> simp [storeGet, hkj, ih]

theorem storeGet_mem {l : List (Nat × ExecData)} {id : Nat} {e : ExecData}
    (h : storeGet l id = some e) : (id, e) ∈ l := by
  induction l with
  | nil => simp [storeGet] at h
  | cons p rest ih =>
    obtain ⟨k, w⟩ := p
    by_cases hk : k = id
    · subst hk
      simp [storeGet] at h
      simp [h]
    · simp only [storeGet, if_neg hk] at h
      exact List.mem_cons_of_mem _ (ih h)

theorem storeSet_mem {l : List (Nat × ExecData)} {id : Nat} {e : ExecData}
    {q : Nat × ExecData} (h : q ∈ storeSet l id e) : q ∈ l ∨ q.2 = e := by
  induction l with
  | nil => simp [storeSet] at h
  | cons p rest ih =>
    obtain ⟨k, w⟩ := p
    by_cases hk : k = id
    · simp only [storeSet, if_pos hk] at h
      rcases List.mem_cons.mp h with h1 | h1
      · right; rw [h1]
      · left; exact List.mem_cons_of_mem _ h1
    · simp only [storeSet, if_neg hk] at h
      rcases List.mem_cons.mp h with h1 | h1
      · left; simp [h1]
      · rcases ih h1 with h2 | h2
        · left; exact List.mem_cons_of_mem _ h2
        · right; exact h2

theorem selectMinAux_none {m : Mock} : ∀ {l : List Nat},
    selectMinAux m l = none → ∀ j ∈ l, m.find j = none := by
  intro l
  induction l with
  | nil => intro _ j hj; simp at hj
  | cons a rest ih =>
    intro h j hj
    cases hf : m.find a with
    | none =>
      simp only [selectMinAux, hf] at h
      rcases List.mem_cons.mp hj with rfl | hj2
      · exact hf
      · exact ih h j hj2
    | some e =>
      simp only [selectMinAux, hf] at h
      cases hr : selectMinAux m rest with
      | none => simp [hr] at h
      | some p =>
        obtain ⟨jd, tj⟩ := p
        simp only [hr] at h
        by_cases hle : e.nextExecution ≤ tj <;> simp [hle] at h

theorem selectMinAux_mem {m : Mock} : ∀ {l : List Nat} {id : Nat} {ti : Time},
    selectMinAux m l = some (id, ti) →
    id ∈ l ∧ ∃ e, m.find id = some e ∧ e.nextExecution = ti := by
  intro l
  induction l with
  | nil => intro id ti h; simp [selectMinAux] at h
  | cons a rest ih =>
    intro id ti h
    cases hf : m.find a with
    | none =>
      simp only [selectMinAux, hf] at h
      obtain ⟨h1, h2⟩ := ih h
      exact ⟨List.mem_cons_of_mem _ h1, h2⟩
    | some e =>
      simp only [selectMinAux, hf] at h
      cases hr : selectMinAux m rest with
      | none =>
        simp only [hr, Option.some.injEq, Prod.mk.injEq] at h
        obtain ⟨rfl, rfl⟩ := h
        exact ⟨List.mem_cons_self a rest, e, hf, rfl⟩
      | some p =>
        obtain ⟨jd, tj⟩ := p
        simp only [hr] at h
        by_cases hle : e.nextExecution ≤ tj
        · simp only [if_pos hle, Option.some.injEq, Prod.mk.injEq] at h
          obtain ⟨rfl, rfl⟩ := h
          exact ⟨List.mem_cons_self a rest, e, hf, rfl⟩
        · simp only [if_neg hle, Option.some.injEq, Prod.mk.injEq] at h
          obtain ⟨rfl, rfl⟩ := h
          obtain ⟨h1, h2⟩ := ih hr
          exact ⟨List.mem_cons_of_mem _ h1, h2⟩

theorem selectMinAux_le {m : Mock} : ∀ {l : List Nat} {id : Nat} {ti : Time},
    selectMinAux m l = some (id, ti) →
    ∀ j ∈ l, ∀ e, m.find j = some e → ti ≤ e.nextExecution := by
  intro l
  induction l with
  | nil => intro id ti h; simp [selectMinAux] at h
  | cons a rest ih =>
    intro id ti h j hj e hje
    cases hf : m.find a with
    | none =>
      simp only [selectMinAux, hf] at h
      rcases List.mem_cons.mp hj with rfl | hj2
      · rw [hje] at hf; exact absurd hf (by simp)
      · exact ih h j hj2 e hje
    | some ea =>
      simp only [selectMinAux, hf] at h
      cases hr : selectMinAux m rest with
      | none =>
        simp only [hr, Option.some.injEq, Prod.mk.injEq] at h
        obtain ⟨rfl, rfl⟩ := h
        rcases List.mem_cons.mp hj with rfl | hj2
        · rw [hf] at hje
          obtain rfl : ea = e := by injection hje
          exact le_refl _
        · rw [selectMinAux_none hr j hj2] at hje; exact absurd hje (by simp)
      | some p =>
        obtain ⟨jd, tj⟩ := p
        simp only [hr] at h
        by_cases hle : ea.nextExecution ≤ tj
        · simp only [if_pos hle, Option.some.injEq, Prod.mk.injEq] at h
          obtain ⟨rfl, rfl⟩ := h
          rcases List.mem_cons.mp hj with rfl | hj2
          · rw [hf] at hje
            obtain rfl : ea = e := by injection hje
            exact le_refl _
          · exact le_trans hle (ih hr j hj2 e hje)
        · simp only [if_neg hle, Option.some.injEq, Prod.mk.injEq] at h
          obtain ⟨rfl, rfl⟩ := h
          rcases List.mem_cons.mp hj with rfl | hj2
          · rw [hf] at hje
            obtain rfl : ea = e := by injection hje
            exact le_of_not_le hle
          · exact ih hr j hj2 e hje

theorem execute_spec {m m2 : Mock} {id : Nat} (h : m.execute id = some m2) :
    (m2 = m ∧ (m.find id = none ∨
      (∃ f : FakeTimer, m.find id = some (.timer f) ∧ f.stopped = true) ∨
      (∃ f : FakeTicker, m.find id = some (.ticker f) ∧ f.stopped = true))) ∨
    (∃ f : FakeTimer, m.find id = some (.timer f) ∧ f.stopped = false ∧
      f.hasChan = true ∧ f.chBuf = [] ∧
      m2 = (m.setStore id (.timer
        { f with chBuf := [f.due], stopped := true })).removeTimer id) ∨
    (∃ f : FakeTimer, m.find id = some (.timer f) ∧ f.stopped = false ∧
      f.hasChan = false ∧
      m2 = (m.setStore id (.timer
        { f with fnCount := f.fnCount + 1, stopped := true })).removeTimer id) ∨
    (∃ f : FakeTicker, m.find id = some (.ticker f) ∧ f.stopped = false ∧
      m2 = m.setStore id (.ticker
        (if f.chBuf = [] then { f with next := f.next + f.d, chBuf := [f.next] }
         else { f with next := f.next + f.d, dropped := f.dropped + 1 }))) := by
  unfold Mock.execute at h
  cases hf : m.find id with
  | none =>
    simp only [hf, Option.some.injEq] at h
    left; exact ⟨h.symm, Or.inl rfl⟩
  | some e =>
    cases e with
    | timer f =>
      simp only [hf] at h
      by_cases hs : f.stopped = true
      · rw [if_pos hs] at h
        left; exact ⟨(Option.some.inj h).symm, Or.inr (Or.inl ⟨f, rfl, hs⟩)⟩
      · rw [if_neg hs] at h
        have hs' : f.stopped = false := by simpa using hs
        by_cases hc : f.hasChan = true
        · rw [if_pos hc] at h
          by_cases hb : f.chBuf = []
          · rw [if_pos hb] at h
            right; left; exact ⟨f, rfl, hs', hc, hb, (Option.some.inj h).symm⟩
          · rw [if_neg hb] at h; exact absurd h (by simp)
        · rw [if_neg hc] at h
          have hc' : f.hasChan = false := by simpa using hc
          right; right; left; exact ⟨f, rfl, hs', hc', (Option.some.inj h).symm⟩
    | ticker f =>
      simp only [hf] at h
      by_cases hs : f.stopped = true
      · rw [if_pos hs] at h
        left; exact ⟨(Option.some.inj h).symm, Or.inr (Or.inr ⟨f, rfl, hs⟩)⟩
      · rw [if_neg hs] at h
        have hs' : f.stopped = false := by simpa using hs
        right; right; right; exact ⟨f, rfl, hs', (Option.some.inj h).symm⟩

theorem execute_none {m : Mock} {id : Nat} (h : m.execute id = none) :
    ∃ f : FakeTimer, m.find id = some (.timer f) ∧ f.stopped = false ∧
      f.hasChan = true ∧ f.chBuf ≠ [] := by
  unfold Mock.execute at h
  cases hf : m.find id with
  | none => simp [hf] at h
  | some e =>
    cases e with
    | timer f =>
      simp only [hf] at h
      by_cases hs : f.stopped = true
      · rw [if_pos hs] at h; exact absurd h (by simp)
      · rw [if_neg hs] at h
        have hs' : f.stopped = false := by simpa using hs
        by_cases hc : f.hasChan = true
        · rw [if_pos hc] at h
          by_cases hb : f.chBuf = []
          · rw [if_pos hb] at h; exact absurd h (by simp)
          · exact ⟨f, rfl, hs', hc, hb⟩
        · rw [if_neg hc] at h; exact absurd h (by simp)
    | ticker f =>
      simp only [hf] at h
      by_cases hs : f.stopped = true
      · rw [if_pos hs] at h; exact absurd h (by simp)
      · rw [if_neg hs] at h; exact absurd h (by simp)

theorem execute_now {m m2 : Mock} {id : Nat} (h : m.execute id = some m2) :
    m2.now = m.now := by
  rcases execute_spec h with ⟨rfl, -⟩ | ⟨f, _, _, _, _, rfl⟩ | ⟨f, _, _, _, rfl⟩ |
    ⟨f, _, _, rfl⟩ <;>
    simp [Mock.setStore, Mock.removeTimer]

theorem execute_find_ne {m m2 : Mock} {id j : Nat} (h : m.execute id = some m2)
    (hj : j ≠ id) : m2.find j = m.find j := by
  rcases execute_spec h with ⟨rfl, -⟩ | ⟨f, _, _, _, _, rfl⟩ | ⟨f, _, _, _, rfl⟩ |
    ⟨f, _, _, rfl⟩ <;>
    simp [Mock.find, Mock.setStore, Mock.removeTimer, storeGet_set_ne _ hj]

theorem execute_registry_mem {m m2 : Mock} {id j : Nat}
    (h : m.execute id = some m2) (hj : j ∈ m2.registry) : j ∈ m.registry := by
  rcases execute_spec h with ⟨rfl, -⟩ | ⟨f, _, _, _, _, rfl⟩ | ⟨f, _, _, _, rfl⟩ |
    ⟨f, _, _, rfl⟩
  · exact hj
  · exact List.mem_of_mem_erase hj
  · exact List.mem_of_mem_erase hj
  · exact hj

theorem execute_registry_keep {m m2 : Mock} {id j : Nat}
    (h : m.execute id = some m2) (hjm : j ∈ m.registry) (hj : j ≠ id) :
    j ∈ m2.registry := by
  rcases execute_spec h with ⟨rfl, -⟩ | ⟨f, _, _, _, _, rfl⟩ | ⟨f, _, _, _, rfl⟩ |
    ⟨f, _, _, rfl⟩
  · exact hjm
  · exact (List.mem_erase_of_ne hj).mpr hjm
  · exact (List.mem_erase_of_ne hj).mpr hjm
  · exact hjm

theorem execute_nodup {m m2 : Mock} {id : Nat} (h : m.execute id = some m2)
    (hnd : m.registry.Nodup) : m2.registry.Nodup := by
  rcases execute_spec h with ⟨rfl, -⟩ | ⟨f, _, _, _, _, rfl⟩ | ⟨f, _, _, _, rfl⟩ |
    ⟨f, _, _, rfl⟩
  · exact hnd
  · exact hnd.erase _
  · exact hnd.erase _
  · exact hnd

theorem wf_setStore {m : Mock} {id : Nat} {e : ExecData} (hwf : m.wfTickers)
    (he : tickerIntervalOK e) : (m.setStore id e).wfTickers := by
  intro p hp
  rcases storeSet_mem hp with h1 | h1
  · exact hwf p h1
  · rw [h1]; exact he

theorem execute_wf {m m2 : Mock} {id : Nat} (h : m.execute id = some m2)
    (hwf : m.wfTickers) : m2.wfTickers := by
  rcases execute_spec h with ⟨rfl, -⟩ | ⟨f, hf, _, _, _, rfl⟩ | ⟨f, hf, _, _, rfl⟩ |
    ⟨f, hf, _, rfl⟩
  · exact hwf
  · exact wf_setStore hwf trivial
  · exact wf_setStore hwf trivial
  · have hd : 0 ≤ f.d := hwf _ (storeGet_mem hf)
    apply wf_setStore hwf
    by_cases hb : f.chBuf = [] <;> simp [hb, tickerIntervalOK, hd]

theorem execute_bound {m m2 : Mock} {id : Nat} {e : ExecData}
    (h : m.execute id = some m2) (hf : m.find id = some e) (hwf : m.wfTickers)
    (hb : m.registryBound e.nextExecution) :
    m2.registryBound e.nextExecution := by
  intro j hj e' hje'
  by_cases hij : j = id
  · subst hij
    rcases execute_spec h with ⟨rfl, -⟩ | ⟨f, hf2, _, _, _, rfl⟩ |
      ⟨f, hf2, _, _, rfl⟩ | ⟨f, hf2, _, rfl⟩
    · exact hb j hj e' hje'
    · rw [hf2] at hf
      obtain rfl : ExecData.timer f = e := by injection hf
      have : ((m.setStore j (.timer
          { f with chBuf := [f.due], stopped := true })).removeTimer j).find j =
          some (.timer { f with chBuf := [f.due], stopped := true }) := by
        simpa [Mock.find, Mock.setStore, Mock.removeTimer] using
          storeGet_set_self (.timer { f with chBuf := [f.due], stopped := true }) hf2
      rw [this] at hje'
      obtain rfl : ExecData.timer { f with chBuf := [f.due], stopped := true } = e' :=
        by injection hje'
      simp [ExecData.nextExecution]
    · rw [hf2] at hf
      obtain rfl : ExecData.timer f = e := by injection hf
      have : ((m.setStore j (.timer
          { f with fnCount := f.fnCount + 1, stopped := true })).removeTimer j).find j =
          some (.timer { f with fnCount := f.fnCount + 1, stopped := true }) := by
        simpa [Mock.find, Mock.setStore, Mock.removeTimer] using
          storeGet_set_self (.timer { f with fnCount := f.fnCount + 1, stopped := true }) hf2
      rw [this] at hje'
      obtain rfl : ExecData.timer { f with fnCount := f.fnCount + 1, stopped := true } = e' :=
        by injection hje'
      simp [ExecData.nextExecution]
    · rw [hf2] at hf
      obtain rfl : ExecData.ticker f = e := by injection hf
      have hd : 0 ≤ f.d := hwf _ (storeGet_mem hf2)
      have hfind : (m.setStore j (.ticker
          (if f.chBuf = [] then { f with next := f.next + f.d, chBuf := [f.next] }
           else { f with next := f.next + f.d, dropped := f.dropped + 1 }))).find j =
          some (.ticker
          (if f.chBuf = [] then { f with next := f.next + f.d, chBuf := [f.next] }
           else { f with next := f.next + f.d, dropped := f.dropped + 1 })) := by
        simpa [Mock.find, Mock.setStore] using
          storeGet_set_self _ hf2
      rw [hfind] at hje'
      obtain rfl : ExecData.ticker
          (if f.chBuf = [] then { f with next := f.next + f.d, chBuf := [f.next] }
           else { f with next := f.next + f.d, dropped := f.dropped + 1 }) = e' :=
        by injection hje'
      by_cases hbuf : f.chBuf = [] <;>
        simp [hbuf, ExecData.nextExecution] <;> exact hd
  · have hfe : m.find j = some e' := by rw [← execute_find_ne h hij]; exact hje'
    exact hb j (execute_registry_mem h hj) e' hfe

theorem tickNext_done {m m2 : Mock} {t : Time} (h : m.tickNext t = .done m2) :
    m2 = m ∧ ∀ j ∈ m.registry, ∀ e, m.find j = some e → t < e.nextExecution := by
  unfold Mock.tickNext at h
  cases hs : m.selectMin with
  | none =>
    simp only [hs] at h
    have hm : m = m2 := by injection h
    subst hm
    refine ⟨rfl, fun j hj e hje => ?_⟩
    rw [selectMinAux_none hs j hj] at hje
    exact absurd hje (by simp)
  | some p =>
    obtain ⟨id, ti⟩ := p
    simp only [hs] at h
    by_cases ht : t < ti
    · rw [if_pos ht] at h
      have hm : m = m2 := by injection h
      subst hm
      exact ⟨rfl, fun j hj e hje =>
        lt_of_lt_of_le ht (selectMinAux_le hs j hj e hje)⟩
    · rw [if_neg ht] at h
      cases hex : m.execute id with
      | none => simp only [hex] at h; exact absurd h (by simp)
      | some mm => simp only [hex] at h; exact absurd h (by simp)

theorem tickNext_fired {m m2 : Mock} {t ti : Time}
    (h : m.tickNext t = .fired ti m2) :
    ∃ id e, m.find id = some e ∧ e.nextExecution = ti ∧ id ∈ m.registry ∧
      ti ≤ t ∧ m.execute id = some m2 ∧ m.registryBound ti := by
  unfold Mock.tickNext at h
  cases hs : m.selectMin with
  | none => simp only [hs] at h; exact absurd h (by simp)
  | some p =>
    obtain ⟨id, ti'⟩ := p
    simp only [hs] at h
    by_cases ht : t < ti'
    · rw [if_pos ht] at h; exact absurd h (by simp)
    · rw [if_neg ht] at h
      cases hex : m.execute id with
      | none => simp only [hex] at h; exact absurd h (by simp)
      | some mm =>
        simp only [hex] at h
        injection h with h1 h2
        subst h1
        subst h2
        obtain ⟨hmem, e, hfind, hnext⟩ := selectMinAux_mem hs
        exact ⟨id, e, hfind, hnext, hmem, not_lt.mp ht, hex,
          fun j hj e' hje' => selectMinAux_le hs j hj e' hje'⟩

theorem tickNext_blocked {m : Mock} {t : Time} (h : m.tickNext t = .blocked) :
    ∃ id f, m.find id = some (.timer f) ∧ (.timer f : ExecData).nextExecution ≤ t ∧
      id ∈ m.registry ∧ f.stopped = false ∧ f.hasChan = true ∧ f.chBuf ≠ [] := by
  unfold Mock.tickNext at h
  cases hs : m.selectMin with
  | none => simp only [hs] at h; exact absurd h (by simp)
  | some p =>
    obtain ⟨id, ti⟩ := p
    simp only [hs] at h
    by_cases ht : t < ti
    · rw [if_pos ht] at h; exact absurd h (by simp)
    · rw [if_neg ht] at h
      cases hex : m.execute id with
      | some mm => simp only [hex] at h; exact absurd h (by simp)
      | none =>
        obtain ⟨f, hfind, hst, hch, hbuf⟩ := execute_none hex
        obtain ⟨hmem, e, hfind2, hnext⟩ := selectMinAux_mem hs
        rw [hfind] at hfind2
        obtain rfl : ExecData.timer f = e := by injection hfind2
        exact ⟨id, f, hfind, by rw [hnext]; exact not_lt.mp ht, hmem, hst, hch, hbuf⟩

theorem tickTrace_now {t : Time} : ∀ {fuel : Nat} {m m' : Mock} {tr : List Time},
    m.tickTrace t fuel = some (tr, m') → m'.now = m.now := by
  intro fuel
  induction fuel with
  | zero => intro m m' tr h; simp [Mock.tickTrace] at h
  | succ n ih =>
    intro m m' tr h
    simp only [Mock.tickTrace] at h
    cases hstep : m.tickNext t with
    | done m2 =>
      simp only [hstep, Option.some.injEq, Prod.mk.injEq] at h
      obtain ⟨rfl, rfl⟩ := h
      obtain ⟨rfl, -⟩ := tickNext_done hstep
      rfl
    | blocked => simp only [hstep] at h; exact absurd h (by simp)
    | fired ti m2 =>
      simp only [hstep] at h
      cases hrec : m2.tickTrace t n with
      | none => rw [hrec] at h; simp at h
      | some p =>
        rw [hrec] at h
        simp only [Option.map_some', Option.some.injEq, Prod.mk.injEq] at h
        obtain ⟨-, rfl⟩ := h
        obtain ⟨id, e, -, -, -, -, hex, -⟩ := tickNext_fired hstep
        rw [ih hrec, execute_now hex]

theorem tickTrace_registry_sub {t : Time} :
    ∀ {fuel : Nat} {m m' : Mock} {tr : List Time} {j : Nat},
    m.tickTrace t fuel = some (tr, m') → j ∈ m'.registry → j ∈ m.registry := by
  intro fuel
  induction fuel with
  | zero => intro m m' tr j h; simp [Mock.tickTrace] at h
  | succ n ih =>
    intro m m' tr j h hj
    simp only [Mock.tickTrace] at h
    cases hstep : m.tickNext t with
    | done m2 =>
      simp only [hstep, Option.some.injEq, Prod.mk.injEq] at h
      obtain ⟨rfl, rfl⟩ := h
      obtain ⟨rfl, -⟩ := tickNext_done hstep
      exact hj
    | blocked => simp only [hstep] at h; exact absurd h (by simp)
    | fired ti m2 =>
      simp only [hstep] at h
      cases hrec : m2.tickTrace t n with
      | none => rw [hrec] at h; simp at h
      | some p =>
        rw [hrec] at h
        simp only [Option.map_some', Option.some.injEq, Prod.mk.injEq] at h
        obtain ⟨-, rfl⟩ := h
        obtain ⟨id, e, -, -, -, -, hex, -⟩ := tickNext_fired hstep
        exact execute_registry_mem hex (ih hrec hj)

theorem tickTrace_out {t : Time} :
    ∀ {fuel : Nat} {m m' : Mock} {tr : List Time} {j : Nat},
    m.tickTrace t fuel = some (tr, m') → j ∉ m.registry →
    m'.find j = m.find j := by
  intro fuel
  induction fuel with
  | zero => intro m m' tr j h; simp [Mock.tickTrace] at h
  | succ n ih =>
    intro m m' tr j h hj
    simp only [Mock.tickTrace] at h
    cases hstep : m.tickNext t with
    | done m2 =>
      simp only [hstep, Option.some.injEq, Prod.mk.injEq] at h
      obtain ⟨rfl, rfl⟩ := h
      obtain ⟨rfl, -⟩ := tickNext_done hstep
      rfl
    | blocked => simp only [hstep] at h; exact absurd h (by simp)
    | fired ti m2 =>
      simp only [hstep] at h
      cases hrec : m2.tickTrace t n with
      | none => rw [hrec] at h; simp at h
      | some p =>
        rw [hrec] at h
        simp only [Option.map_some', Option.some.injEq, Prod.mk.injEq] at h
        obtain ⟨-, rfl⟩ := h
        obtain ⟨id, e, -, -, hid, -, hex, -⟩ := tickNext_fired hstep
        have hji : j ≠ id := fun hh => hj (hh ▸ hid)
        have hj2 : j ∉ m2.registry := fun hh => hj (execute_registry_mem hex hh)
        rw [ih hrec hj2, execute_find_ne hex hji]

theorem tickTrace_nodup {t : Time} :
    ∀ {fuel : Nat} {m m' : Mock} {tr : List Time},
    m.tickTrace t fuel = some (tr, m') → m.registry.Nodup →
    m'.registry.Nodup := by
  intro fuel
  induction fuel with
  | zero => intro m m' tr h; simp [Mock.tickTrace] at h
  | succ n ih =>
    intro m m' tr h hnd
    simp only [Mock.tickTrace] at h
    cases hstep : m.tickNext t with
    | done m2 =>
      simp only [hstep, Option.some.injEq, Prod.mk.injEq] at h
      obtain ⟨rfl, rfl⟩ := h
      obtain ⟨rfl, -⟩ := tickNext_done hstep
      exact hnd
    | blocked => simp only [hstep] at h; exact absurd h (by simp)
    | fired ti m2 =>
      simp only [hstep] at h
      cases hrec : m2.tickTrace t n with
      | none => rw [hrec] at h; simp at h
      | some p =>
        rw [hrec] at h
        simp only [Option.map_some', Option.some.injEq, Prod.mk.injEq] at h
        obtain ⟨-, rfl⟩ := h
        obtain ⟨id, e, -, -, -, -, hex, -⟩ := tickNext_fired hstep
        exact ih hrec (execute_nodup hex hnd)

theorem tickTrace_wf {t : Time} :
    ∀ {fuel : Nat} {m m' : Mock} {tr : List Time},
    m.tickTrace t fuel = some (tr, m') → m.wfTickers → m'.wfTickers := by
  intro fuel
  induction fuel with
  | zero => intro m m' tr h; simp [Mock.tickTrace] at h
  | succ n ih =>
    intro m m' tr h hwf
    simp only [Mock.tickTrace] at h
    cases hstep : m.tickNext t with
    | done m2 =>
      simp only [hstep, Option.some.injEq, Prod.mk.injEq] at h
      obtain ⟨rfl, rfl⟩ := h
      obtain ⟨rfl, -⟩ := tickNext_done hstep
      exact hwf
    | blocked => simp only [hstep] at h; exact absurd h (by simp)
    | fired ti m2 =>
      simp only [hstep] at h
      cases hrec : m2.tickTrace t n with
      | none => rw [hrec] at h; simp at h
      | some p =>
        rw [hrec] at h
        simp only [Option.map_some', Option.some.injEq, Prod.mk.injEq] at h
        obtain ⟨-, rfl⟩ := h
        obtain ⟨id, e, -, -, -, -, hex, -⟩ := tickNext_fired hstep
        exact ih hrec (execute_wf hex hwf)

theorem tickTrace_exit {t : Time} :
    ∀ {fuel : Nat} {m m' : Mock} {tr : List Time},
    m.tickTrace t fuel = some (tr, m') →
    ∀ j ∈ m'.registry, ∀ e, m'.find j = some e → t < e.nextExecution := by
  intro fuel
  induction fuel with
  | zero => intro m m' tr h; simp [Mock.tickTrace] at h
  | succ n ih =>
    intro m m' tr h
    simp only [Mock.tickTrace] at h
    cases hstep : m.tickNext t with
    | done m2 =>
      simp only [hstep, Option.some.injEq, Prod.mk.injEq] at h
      obtain ⟨rfl, rfl⟩ := h
      obtain ⟨rfl, hdone⟩ := tickNext_done hstep
      exact hdone
    | blocked => simp only [hstep] at h; exact absurd h (by simp)
    | fired ti m2 =>
      simp only [hstep] at h
      cases hrec : m2.tickTrace t n with
      | none => rw [hrec] at h; simp at h
      | some p =>
        rw [hrec] at h
        simp only [Option.map_some', Option.some.injEq, Prod.mk.injEq] at h
        obtain ⟨-, rfl⟩ := h
        exact ih hrec

theorem tickTrace_timer_entry {t : Time} :
    ∀ {fuel : Nat} {m m' : Mock} {tr : List Time} {j : Nat} {f : FakeTimer},
    m.tickTrace t fuel = some (tr, m') → m.registry.Nodup →
    j ∈ m'.registry → m'.find j = some (.timer f) →
    m.find j = some (.timer f) := by
  intro fuel
  induction fuel with
  | zero => intro m m' tr j f h; simp [Mock.tickTrace] at h
  | succ n ih =>
    intro m m' tr j f h hnd hj hjf
    simp only [Mock.tickTrace] at h
    cases hstep : m.tickNext t with
    | done m2 =>
      simp only [hstep, Option.some.injEq, Prod.mk.injEq] at h
      obtain ⟨rfl, rfl⟩ := h
      obtain ⟨rfl, -⟩ := tickNext_done hstep
      exact hjf
    | blocked => simp only [hstep] at h; exact absurd h (by simp)
    | fired ti m2 =>
      simp only [hstep] at h
      cases hrec : m2.tickTrace t n with
      | none => rw [hrec] at h; simp at h
      | some p =>
        rw [hrec] at h
        simp only [Option.map_some', Option.some.injEq, Prod.mk.injEq] at h
        obtain ⟨-, rfl⟩ := h
        obtain ⟨id, e, hfind, -, hid, -, hex, -⟩ := tickNext_fired hstep
        have h2 := ih hrec (execute_nodup hex hnd) hj hjf
        have hjm2 : j ∈ m2.registry := tickTrace_registry_sub hrec hj
        by_cases hji : j = id
        · subst hji
          rcases execute_spec hex with ⟨rfl, -⟩ | ⟨g, hg, -, -, -, rfl⟩ |
            ⟨g, hg, -, -, rfl⟩ | ⟨g, hg, -, rfl⟩
          · exact h2
          · exact absurd hjm2 (by
              simp only [Mock.removeTimer, Mock.setStore]
              exact hnd.not_mem_erase)
          · exact absurd hjm2 (by
              simp only [Mock.removeTimer, Mock.setStore]
              exact hnd.not_mem_erase)
          · rw [show (m.setStore j (.ticker
                (if g.chBuf = [] then { g with next := g.next + g.d, chBuf := [g.next] }
                 else { g with next := g.next + g.d, dropped := g.dropped + 1 }))).find j =
                some (.ticker
                (if g.chBuf = [] then { g with next := g.next + g.d, chBuf := [g.next] }
                 else { g with next := g.next + g.d, dropped := g.dropped + 1 })) from by
              simpa [Mock.find, Mock.setStore] using storeGet_set_self _ hg] at h2
            exact absurd h2 (by simp)
        · rw [execute_find_ne hex hji] at h2
          exact h2

theorem tickTrace_chain {t : Time} :
    ∀ {fuel : Nat} {m m' : Mock} {tr : List Time} {c : Time},
    m.wfTickers → m.registryBound c → m.tickTrace t fuel = some (tr, m') →
    List.Chain' (· ≤ ·) (c :: tr) := by
  intro fuel
  induction fuel with
  | zero => intro m m' tr c _ _ h; simp [Mock.tickTrace] at h
  | succ n ih =>
    intro m m' tr c hwf hb h
    simp only [Mock.tickTrace] at h
    cases hstep : m.tickNext t with
    | done m2 =>
      simp only [hstep, Option.some.injEq, Prod.mk.injEq] at h
      obtain ⟨rfl, rfl⟩ := h
      exact List.chain'_singleton c
    | blocked => simp only [hstep] at h; exact absurd h (by simp)
    | fired ti m2 =>
      simp only [hstep] at h
      cases hrec : m2.tickTrace t n with
      | none => rw [hrec] at h; simp at h
      | some p =>
        rw [hrec] at h
        simp only [Option.map_some', Option.some.injEq, Prod.mk.injEq] at h
        obtain ⟨rfl, rfl⟩ := h
        obtain ⟨id, e, hfind, hnext, hid, -, hex, hbti⟩ := tickNext_fired hstep
        have hcti : c ≤ ti := by
          rw [← hnext]; exact hb id hid e hfind
        have hb2 : m2.registryBound ti := by
          rw [← hnext]
          exact execute_bound hex hfind hwf (hnext ▸ hbti)
        exact List.chain'_cons.mpr
          ⟨hcti, ih (execute_wf hex hwf) hb2 hrec⟩

theorem tickTrace_chain_all {t : Time} {fuel : Nat} {m m' : Mock}
    {tr : List Time} (hwf : m.wfTickers)
    (h : m.tickTrace t fuel = some (tr, m')) :
    List.Chain' (· ≤ ·) tr := by
  cases fuel with
  | zero => simp [Mock.tickTrace] at h
  | succ n =>
    simp only [Mock.tickTrace] at h
    cases hstep : m.tickNext t with
    | done m2 =>
      simp only [hstep, Option.some.injEq, Prod.mk.injEq] at h
      obtain ⟨rfl, rfl⟩ := h
      exact List.chain'_nil
    | blocked => simp only [hstep] at h; exact absurd h (by simp)
    | fired ti m2 =>
      simp only [hstep] at h
      cases hrec : m2.tickTrace t n with
      | none => rw [hrec] at h; simp at h
      | some p =>
        rw [hrec] at h
        simp only [Option.map_some', Option.some.injEq, Prod.mk.injEq] at h
        obtain ⟨rfl, rfl⟩ := h
        obtain ⟨id, e, hfind, hnext, hid, -, hex, hbti⟩ := tickNext_fired hstep
        have hb2 : m2.registryBound ti := by
          rw [← hnext]
          exact execute_bound hex hfind hwf (hnext ▸ hbti)
        exact tickTrace_chain (execute_wf hex hwf) hb2 hrec

theorem tickTrace_done_step {m m2 : Mock} {t : Time} {fuel : Nat}
    (h : m.tickNext t = .done m2) :
    m.tickTrace t (fuel + 1) = some ([], m2) := by
  simp only [Mock.tickTrace, h]

theorem tickTrace_fired_step {m m2 : Mock} {t ti : Time} {fuel : Nat}
    (h : m.tickNext t = .fired ti m2) :
    m.tickTrace t (fuel + 1) =
      (m2.tickTrace t fuel).map (fun p => (ti :: p.1, p.2)) := by
  simp only [Mock.tickTrace, h]

theorem forward_eq_forwardTrace (m : Mock) (d : Time) (fuel : Nat) :
    m.Forward d fuel = (m.forwardTrace d fuel).map (fun p => p.2) := rfl

theorem forward_dest {m m2 : Mock} {d : Time} {fuel : Nat}
    (h : m.Forward d fuel = some m2) :
    ∃ tr, Mock.tickTrace { m with now := m.now + d } (m.now + d) fuel =
      some (tr, m2) := by
  unfold Mock.Forward Mock.tick at h
  cases htr : Mock.tickTrace { m with now := m.now + d } (m.now + d) fuel with
  | none => rw [htr] at h; simp at h
  | some p =>
    obtain ⟨tr0, mfin⟩ := p
    rw [htr] at h
    simp only [Option.map_some', Option.some.injEq] at h
    subst h
    exact ⟨tr0, rfl⟩

theorem set_dest {m m2 : Mock} {t : Time} {fuel : Nat}
    (h : m.Set t fuel = some m2) :
    ∃ tr, Mock.tickTrace { m with now := t } t fuel = some (tr, m2) := by
  unfold Mock.Set Mock.tick at h
  cases htr : Mock.tickTrace { m with now := t } t fuel with
  | none => rw [htr] at h; simp at h
  | some p =>
    obtain ⟨tr0, mfin⟩ := p
    rw [htr] at h
    simp only [Option.map_some', Option.some.injEq] at h
    subst h
    exact ⟨tr0, rfl⟩

theorem forward_now {m m2 : Mock} {d : Time} {fuel : Nat}
    (h : m.Forward d fuel = some m2) : m2.now = m.now + d := by
  obtain ⟨tr, htr⟩ := forward_dest h
  exact tickTrace_now htr

theorem forward_out {m m2 : Mock} {d : Time} {fuel : Nat} {j : Nat}
    (h : m.Forward d fuel = some m2) (hj : j ∉ m.registry) :
    m2.find j = m.find j ∧ j ∉ m2.registry := by
  obtain ⟨tr, htr⟩ := forward_dest h
  have hj2 : j ∉ Mock.registry { m with now := m.now + d } := hj
  have h1 := tickTrace_out htr hj2
  exact ⟨h1, fun hc => hj2 (tickTrace_registry_sub htr hc)⟩

theorem timerPending_forward (n u d : Time) :
    (timerPending n u).Forward d 2 =
      some (if u ≤ n + d then timerFired (n + d) u else timerPending (n + d) u) := by
  by_cases h : u ≤ n + d
  · have h2 : ¬ (n + d < u) := not_lt.mpr h
    rw [if_pos h]
    simp [Mock.Forward, Mock.tick, Mock.tickTrace, Mock.tickNext, Mock.selectMin,
      selectMinAux, Mock.find, storeGet, Mock.execute, Mock.setStore, storeSet,
      Mock.removeTimer, timerPending, timerFired, ExecData.nextExecution, h2]
  · have h2 : n + d < u := not_le.mp h
    rw [if_neg h]
    simp [Mock.Forward, Mock.tick, Mock.tickTrace, Mock.tickNext, Mock.selectMin,
      selectMinAux, Mock.find, storeGet, Mock.execute, Mock.setStore, storeSet,
      Mock.removeTimer, timerPending, ExecData.nextExecution, h2]

theorem timerFired_forward (n u d : Time) :
    (timerFired n u).Forward d 2 = some (timerFired (n + d) u) := by
  simp [timerFired, Mock.Forward, Mock.tick, Mock.tickTrace, Mock.tickNext,
    Mock.selectMin, selectMinAux]

theorem timerFired_forwardSeq : ∀ (ds : List Int) (n u : Time),
    (timerFired n u).forwardSeq 2 ds = some (timerFired (n + ds.sum) u) := by
  intro ds
  induction ds with
  | nil => intro n u; simp [Mock.forwardSeq]
  | cons d ds ih =>
    intro n u
    simp only [Mock.forwardSeq, timerFired_forward]
    rw [ih]
    simp [List.sum_cons, add_assoc]

theorem c1_aux (u : Time) : ∀ (ds : List Int) (n : Time), (∀ d ∈ ds, 0 ≤ d) →
    (timerPending n u).forwardSeq 2 ds =
      some (if ds ≠ [] ∧ u ≤ n + ds.sum then timerFired (n + ds.sum) u
            else timerPending (n + ds.sum) u) := by
  intro ds
  induction ds with
  | nil => intro n h; simp [Mock.forwardSeq]
  | cons d ds ih =>
    intro n h
    have hd : 0 ≤ d := h d (List.mem_cons_self d ds)
    have hds : ∀ x ∈ ds, 0 ≤ x := fun x hx => h x (List.mem_cons_of_mem d hx)
    have hsum : 0 ≤ ds.sum := List.sum_nonneg hds
    simp only [Mock.forwardSeq, timerPending_forward, List.sum_cons, ← add_assoc]
    by_cases hfire : u ≤ n + d
    · rw [if_pos hfire, timerFired_forwardSeq]
      rw [if_pos ⟨List.cons_ne_nil d ds, by linarith⟩]
    · rw [if_neg hfire, ih (n + d) hds]
      by_cases hc : u ≤ n + d + ds.sum
      · have hne : ds ≠ [] := by
          rintro rfl
          simp only [List.sum_nil, add_zero] at hc
          exact hfire hc
        rw [if_pos ⟨hne, hc⟩, if_pos ⟨List.cons_ne_nil d ds, hc⟩]
      · rw [if_neg (fun hx => hc hx.2), if_neg (fun hx => hc hx.2)]

theorem fnPending_forward (n u d : Time) (k : Nat) :
    (fnPending n u k).Forward d 2 =
      some (if u ≤ n + d then fnFired (n + d) u (k + 1) else fnPending (n + d) u k) := by
  by_cases h : u ≤ n + d
  · have h2 : ¬ (n + d < u) := not_lt.mpr h
    rw [if_pos h]
    simp [Mock.Forward, Mock.tick, Mock.tickTrace, Mock.tickNext, Mock.selectMin,
      selectMinAux, Mock.find, storeGet, Mock.execute, Mock.setStore, storeSet,
      Mock.removeTimer, fnPending, fnFired, ExecData.nextExecution, h2]
  · have h2 : n + d < u := not_le.mp h
    rw [if_neg h]
    simp [Mock.Forward, Mock.tick, Mock.tickTrace, Mock.tickNext, Mock.selectMin,
      selectMinAux, Mock.find, storeGet, Mock.execute, Mock.setStore, storeSet,
      Mock.removeTimer, fnPending, ExecData.nextExecution, h2]

theorem fnFired_reset (n u : Time) (k : Nat) (d : Time) :
    (fnFired n u k).timerReset 0 d = (false, fnPending n (n + d) k) := by
  simp [fnFired, fnPending, Mock.timerReset, Mock.find, storeGet, Mock.setStore,
    storeSet, Mock.addReg]

theorem timerFired_recv (n u : Time) :
    (timerFired n u).recvTimer 0 = some (u, timerInert n u) := by
  simp [timerFired, timerInert, Mock.recvTimer, Mock.find, storeGet,
    Mock.setStore, storeSet]

theorem timerPending_stop (n u : Time) :
    (timerPending n u).timerStop 0 = (true, timerInert n u) := by
  simp [timerPending, timerInert, Mock.timerStop, Mock.find, storeGet,
    Mock.setStore, storeSet, Mock.removeTimer]

theorem timerInert_reset (n u d : Time) :
    (timerInert n u).timerReset 0 d = (false, timerPending n (n + d)) := by
  simp [timerInert, timerPending, Mock.timerReset, Mock.find, storeGet,
    Mock.setStore, storeSet, Mock.addReg]

theorem tickerMock_tickNext_done (n c I : Time) (buf : List Time)
    (drop : Nat) (t : Time) (h : t < c) :
    (tickerMock n c I buf drop).tickNext t = .done (tickerMock n c I buf drop) := by
  simp [tickerMock, Mock.tickNext, Mock.selectMin, selectMinAux, Mock.find,
    storeGet, ExecData.nextExecution, h]

theorem tickerMock_tickNext_fire (n c I : Time) (v : Time) (buf : List Time)
    (drop : Nat) (t : Time) (h : c ≤ t) :
    (tickerMock n c I (v :: buf) drop).tickNext t =
      .fired c (tickerMock n (c + I) I (v :: buf) (drop + 1)) := by
  have h2 : ¬ (t < c) := not_lt.mpr h
  simp [tickerMock, Mock.tickNext, Mock.selectMin, selectMinAux, Mock.find,
    storeGet, Mock.execute, Mock.setStore, storeSet, ExecData.nextExecution, h2]

theorem tickerMock_tickNext_fire_empty (n c I : Time) (drop : Nat) (t : Time)
    (h : c ≤ t) :
    (tickerMock n c I [] drop).tickNext t =
      .fired c (tickerMock n (c + I) I [c] drop) := by
  have h2 : ¬ (t < c) := not_lt.mpr h
  simp [tickerMock, Mock.tickNext, Mock.selectMin, selectMinAux, Mock.find,
    storeGet, Mock.execute, Mock.setStore, storeSet, ExecData.nextExecution, h2]

theorem tickerMock_forwardTrace (n c I : Time) (buf : List Time) (drop : Nat)
    (d : Time) (fuel : Nat) :
    (tickerMock n c I buf drop).forwardTrace d fuel =
      (tickerMock (n + d) c I buf drop).tickTrace (n + d) fuel := rfl

theorem tickerMock_recv (n c I v : Time) (rest : List Time) (drop : Nat) :
    (tickerMock n c I (v :: rest) drop).recvTicker 0 =
      some (v, tickerMock n c I rest drop) := rfl

theorem tickTimes_length (c I : Time) : ∀ N : Nat, (tickTimes c I N).length = N := by
  intro N
  induction N generalizing c with
  | zero => rfl
  | succ n ih => simp [tickTimes, ih]

theorem fullBufDrain (I : Time) (hI : 0 < I) :
    ∀ (N : Nat) (c n t v : Time) (buf : List Time) (drop : Nat),
    t < c + N * I → c + N * I ≤ t + I →
    (tickerMock n c I (v :: buf) drop).tickTrace t (N + 1) =
      some (tickTimes c I N, tickerMock n (c + N * I) I (v :: buf) (drop + N)) := by
  intro N
  induction N with
  | zero =>
    intro c n t v buf drop hub hlb
    have h2 : t < c := by push_cast at hub; linarith
    rw [tickTrace_done_step (tickerMock_tickNext_done n c I (v :: buf) drop t h2)]
    norm_num [tickTimes]
  | succ N ih =>
    intro c n t v buf drop hub hlb
    have hc : c ≤ t := by
      have h0 : (0:Int) ≤ (N : Int) * I := by positivity
      push_cast at hlb
      linarith
    have hub2 : t < (c + I) + N * I := by push_cast at hub ⊢; linarith
    have hlb2 : (c + I) + N * I ≤ t + I := by push_cast at hlb ⊢; linarith
    rw [tickTrace_fired_step (tickerMock_tickNext_fire n c I v buf drop t hc)]
    rw [ih (c + I) n t v buf (drop + 1) hub2 hlb2]
    have e1 : c + ((N : Nat) + 1 : Int) * I = c + I + (N : Int) * I := by ring
    have e2 : drop + (N + 1) = drop + 1 + N := by omega
    simp only [Option.map_some', Nat.cast_add, Nat.cast_one, e1, e2, tickTimes]

theorem c4b_aux (I : Time) (hI : 0 < I) (N : Nat) (n0 : Time) :
    (tickerMock n0 (n0 + I) I [] 0).forwardTrace ((N : Int) * I) (N + 1) =
      some (tickTimes (n0 + I) I N,
            tickerMock (n0 + (N : Int) * I) (n0 + ((N : Int) + 1) * I) I
              (if N = 0 then [] else [n0 + I]) (N - 1)) := by
  rw [tickerMock_forwardTrace]
  cases N with
  | zero =>
    have h2 : n0 + ((0 : Nat) : Int) * I < n0 + I := by push_cast; linarith
    rw [tickTrace_done_step (tickerMock_tickNext_done _ _ _ _ _ _ h2)]
    norm_num [tickTimes]
  | succ M =>
    have hc : n0 + I ≤ n0 + ((M + 1 : Nat) : Int) * I := by
      have h0 : (0:Int) ≤ (M : Int) * I := by positivity
      push_cast
      linarith
    rw [tickTrace_fired_step (tickerMock_tickNext_fire_empty _ _ _ _ _ hc)]
    have hub : n0 + ((M + 1 : Nat) : Int) * I < (n0 + I + I) + (M : Int) * I := by
      push_cast; linarith
    have hlb : (n0 + I + I) + (M : Int) * I ≤ n0 + ((M + 1 : Nat) : Int) * I + I := by
      push_cast; linarith
    rw [fullBufDrain I hI M (n0 + I + I) _ _ (n0 + I) [] 0 hub hlb]
    have e1 : n0 + I + I + (M : Int) * I = n0 + (((M + 1 : Nat) : Int) + 1) * I := by
      push_cast; ring
    simp only [Option.map_some', e1, Nat.zero_add, tickTimes]
    norm_num

theorem tickerMock_forward_one (n I : Time) (hI : 0 < I) :
    (tickerMock n (n + I) I [] 0).Forward I 2 =
      some (tickerMock (n + I) (n + I + I) I [n + I] 0) := by
  rw [forward_eq_forwardTrace, tickerMock_forwardTrace]
  rw [tickTrace_fired_step (tickerMock_tickNext_fire_empty _ _ _ _ _ (le_refl _))]
  have hlt : n + I < n + I + I := by linarith
  rw [tickTrace_done_step (tickerMock_tickNext_done _ _ _ _ _ _ hlt)]
  rfl

theorem tickerRounds_spec (I : Time) (hI : 0 < I) :
    ∀ (N : Nat) (n : Time),
    tickerRounds I N (tickerMock n (n + I) I [] 0) =
      some (tickTimes (n + I) I N,
            tickerMock (n + (N : Int) * I) (n + (N : Int) * I + I) I [] 0) := by
  intro N
  induction N with
  | zero => intro n; norm_num [tickerRounds, tickTimes]
  | succ M ih =>
    intro n
    simp only [tickerRounds, tickerMock_forward_one n I hI, tickerMock_recv]
    rw [ih (n + I)]
    have e1 : n + I + (M : Int) * I = n + ((M + 1 : Nat) : Int) * I := by
      push_cast; ring
    simp only [Option.map_some', tickTimes, e1]

theorem storeSet_self_eq : ∀ {l : List (Nat × ExecData)} {id : Nat} {v : ExecData},
    storeGet l id = some v → storeSet l id v = l := by
  intro l
  induction l with
  | nil => intro id v h; simp [storeGet] at h
  | cons p rest ih =>
    intro id v h
    obtain ⟨k, w⟩ := p
    by_cases hk : k = id
    · subst hk
      have h2 : w = v := by simpa [storeGet] using h
      subst h2
      simp [storeSet]
    · simp only [storeGet, if_neg hk] at h
      simp [storeSet, if_neg hk, ih h]

theorem timerStop_spec (m : Mock) (id : Nat) (f : FakeTimer)
    (hf : m.find id = some (.timer f)) :
    m.timerStop id = (!f.stopped,
      (m.setStore id (.timer { f with stopped := true })).removeTimer id) := by
  have hf1 : (m.removeTimer id).find id = some (.timer f) := hf
  cases hstop : f.stopped with
  | false =>
    simp only [Mock.timerStop, hf1, hstop, Bool.false_eq_true, if_false,
      Bool.not_false]
    rfl
  | true =>
    simp only [Mock.timerStop, hf1, hstop, if_true, Bool.not_true]
    have hfeq : ({ f with stopped := true } : FakeTimer) = f := by
      cases f
      simp only at hstop
      simp [hstop]
    rw [hfeq]
    have hset : storeSet m.store id (.timer f) = m.store := storeSet_self_eq hf
    simp [Mock.setStore, Mock.removeTimer, hset]

theorem timerReset_spec (m : Mock) (id : Nat) (f : FakeTimer) (d : Time)
    (hf : m.find id = some (.timer f)) :
    m.timerReset id d = (!f.stopped,
      if f.stopped = true
      then (m.setStore id
        (.timer { f with due := m.now + d, stopped := false })).addReg id
      else m.setStore id (.timer { f with due := m.now + d })) := by
  cases hstop : f.stopped with
  | false =>
    simp only [Mock.timerReset, hf, hstop, Bool.false_eq_true, if_false,
      Bool.not_false]
  | true =>
    simp only [Mock.timerReset, hf, hstop, if_true, Bool.not_true]

theorem measure_decomp {m : Mock} {t : Time} {id : Nat} (hid : id ∈ m.registry) :
    m.fireMeasure t = ((m.find id).map (fireBudget t)).getD 0 +
      ((m.registry.erase id).map
        (fun j => ((m.find j).map (fireBudget t)).getD 0)).sum := by
  unfold Mock.fireMeasure
  have hperm := List.perm_cons_erase hid
  rw [(hperm.map (fun j => ((m.find j).map (fireBudget t)).getD 0)).sum_eq]
  simp [List.sum_cons]

theorem measure_congr_on {m m2 : Mock} {t : Time} {l : List Nat}
    (h : ∀ j ∈ l, m2.find j = m.find j) :
    (l.map (fun j => ((m2.find j).map (fireBudget t)).getD 0)).sum =
    (l.map (fun j => ((m.find j).map (fireBudget t)).getD 0)).sum := by
  congr 1
  exact List.map_congr_left (fun j hj => by rw [h j hj])

theorem regEntryOK_of_find {m : Mock} {j : Nat} {e : ExecData}
    (hf : m.find j = some e) (hok : registeredOK e) : m.regEntryOK j := by
  unfold Mock.regEntryOK
  rw [hf]
  exact hok

theorem regEntryOK_elim {m : Mock} {j : Nat} {e : ExecData}
    (h : m.regEntryOK j) (hf : m.find j = some e) : registeredOK e := by
  unfold Mock.regEntryOK at h
  rw [hf] at h
  exact h

theorem goodState_no_block {m : Mock} {t : Time} (hg : m.goodState) :
    m.tickNext t ≠ .blocked := by
  intro h
  obtain ⟨id, f, hfind, -, hid, -, hch, hbuf⟩ := tickNext_blocked h
  have hok := regEntryOK_elim (hg.2 id hid) hfind
  exact hbuf (hok.2 hch)

theorem fired_step_good {m m2 : Mock} {t ti : Time} (hg : m.goodState)
    (h : m.tickNext t = .fired ti m2) :
    m2.goodState ∧ m2.fireMeasure t < m.fireMeasure t := by
  obtain ⟨hnd, hreg⟩ := hg
  obtain ⟨id, e, hfind, hnext, hid, hle, hex, -⟩ := tickNext_fired h
  have hok : registeredOK e := regEntryOK_elim (hreg id hid) hfind
  rcases execute_spec hex with ⟨rfl, hreason⟩ | ⟨f, hf2, hstop, hch, hbuf, rfl⟩ |
    ⟨f, hf2, hstop, hch, rfl⟩ | ⟨f, hf2, hstop, rfl⟩
  · exfalso
    rcases hreason with h1 | ⟨g, h1, h2⟩ | ⟨g, h1, h2⟩
    · rw [h1] at hfind; exact absurd hfind (by simp)
    · rw [h1] at hfind
      obtain rfl : ExecData.timer g = e := by injection hfind
      rw [hok.1] at h2
      exact absurd h2 (by simp)
    · rw [h1] at hfind
      obtain rfl : ExecData.ticker g = e := by injection hfind
      rw [hok.1] at h2
      exact absurd h2 (by simp)
  · -- channel timer fired: buffered the due time, stopped, deregistered
    rw [hf2] at hfind
    obtain rfl : ExecData.timer f = e := by injection hfind
    have hdue : f.due ≤ t := by
      simp only [ExecData.nextExecution] at hnext
      rw [hnext]
      exact hle
    have hregistry : ((m.setStore id (.timer
        { f with chBuf := [f.due], stopped := true })).removeTimer id).registry =
        m.registry.erase id := rfl
    constructor
    · constructor
      · rw [hregistry]; exact hnd.erase id
      · intro j hj
        rw [hregistry] at hj
        have hjne : j ≠ id := ((hnd.mem_erase_iff).mp hj).1
        have hjmem : j ∈ m.registry := ((hnd.mem_erase_iff).mp hj).2
        have h3 := hreg j hjmem
        unfold Mock.regEntryOK at h3 ⊢
        rwa [execute_find_ne hex hjne]
    · have hm : m.fireMeasure t = 1 +
          ((m.registry.erase id).map
            (fun j => ((m.find j).map (fireBudget t)).getD 0)).sum := by
        rw [measure_decomp hid, hf2]
        simp [fireBudget, hdue]
      have hm2 : Mock.fireMeasure ((m.setStore id (.timer
          { f with chBuf := [f.due], stopped := true })).removeTimer id) t =
          ((m.registry.erase id).map
            (fun j => ((m.find j).map (fireBudget t)).getD 0)).sum := by
        unfold Mock.fireMeasure
        rw [hregistry]
        apply measure_congr_on
        intro j hj
        exact execute_find_ne hex ((hnd.mem_erase_iff).mp hj).1
      omega
  · -- callback timer fired: ran the callback, stopped, deregistered
    rw [hf2] at hfind
    obtain rfl : ExecData.timer f = e := by injection hfind
    have hdue : f.due ≤ t := by
      simp only [ExecData.nextExecution] at hnext
      rw [hnext]
      exact hle
    have hregistry : ((m.setStore id (.timer
        { f with fnCount := f.fnCount + 1, stopped := true })).removeTimer id).registry =
        m.registry.erase id := rfl
    constructor
    · constructor
      · rw [hregistry]; exact hnd.erase id
      · intro j hj
        rw [hregistry] at hj
        have hjne : j ≠ id := ((hnd.mem_erase_iff).mp hj).1
        have hjmem : j ∈ m.registry := ((hnd.mem_erase_iff).mp hj).2
        have h3 := hreg j hjmem
        unfold Mock.regEntryOK at h3 ⊢
        rwa [execute_find_ne hex hjne]
    · have hm : m.fireMeasure t = 1 +
          ((m.registry.erase id).map
            (fun j => ((m.find j).map (fireBudget t)).getD 0)).sum := by
        rw [measure_decomp hid, hf2]
        simp [fireBudget, hdue]
      have hm2 : Mock.fireMeasure ((m.setStore id (.timer
          { f with fnCount := f.fnCount + 1, stopped := true })).removeTimer id) t =
          ((m.registry.erase id).map
            (fun j => ((m.find j).map (fireBudget t)).getD 0)).sum := by
        unfold Mock.fireMeasure
        rw [hregistry]
        apply measure_congr_on
        intro j hj
        exact execute_find_ne hex ((hnd.mem_erase_iff).mp hj).1
      omega
  · -- ticker fired: rescheduled one interval later
    rw [hf2] at hfind
    obtain rfl : ExecData.ticker f = e := by injection hfind
    have hd : 0 < f.d := hok.2
    have hnextle : f.next ≤ t := by
      simp only [ExecData.nextExecution] at hnext
      rw [hnext]
      exact hle
    set newf : FakeTicker :=
      (if f.chBuf = [] then { f with next := f.next + f.d, chBuf := [f.next] }
       else { f with next := f.next + f.d, dropped := f.dropped + 1 }) with hnewf
    have hnewnext : newf.next = f.next + f.d := by
      rw [hnewf]; by_cases hb : f.chBuf = [] <;> simp [hb]
    have hnewd : newf.d = f.d := by
      rw [hnewf]; by_cases hb : f.chBuf = [] <;> simp [hb]
    have hnewstop : newf.stopped = f.stopped := by
      rw [hnewf]; by_cases hb : f.chBuf = [] <;> simp [hb]
    have hfindself : (m.setStore id (.ticker newf)).find id = some (.ticker newf) := by
      simpa [Mock.find, Mock.setStore] using storeGet_set_self (.ticker newf) hf2
    have hregistry : (m.setStore id (.ticker newf)).registry = m.registry := rfl
    constructor
    · constructor
      · rw [hregistry]; exact hnd
      · intro j hj
        rw [hregistry] at hj
        by_cases hji : j = id
        · subst hji
          apply regEntryOK_of_find hfindself
          exact ⟨by rw [hnewstop]; exact hok.1, by rw [hnewd]; exact hd⟩
        · have h3 := hreg j hj
          unfold Mock.regEntryOK at h3 ⊢
          rwa [execute_find_ne hex hji]
    · have e0 : 0 ≤ (t - f.next) / f.d := Int.ediv_nonneg (by linarith) (le_of_lt hd)
      have ed : (t - (f.next + f.d)) / f.d = (t - f.next) / f.d - 1 := by
        rw [show t - (f.next + f.d) = t - f.next + (-1) * f.d from by ring]
        rw [Int.add_mul_ediv_right _ _ (ne_of_gt hd)]
        ring
      have hm : m.fireMeasure t = ((t - f.next) / f.d + 1).toNat +
          ((m.registry.erase id).map
            (fun j => ((m.find j).map (fireBudget t)).getD 0)).sum := by
        rw [measure_decomp hid, hf2]
        simp [fireBudget]
      have hm2 : (m.setStore id (.ticker newf)).fireMeasure t =
          ((t - f.next) / f.d).toNat +
          ((m.registry.erase id).map
            (fun j => ((m.find j).map (fireBudget t)).getD 0)).sum := by
        rw [measure_decomp (show id ∈ (m.setStore id (.ticker newf)).registry from hid)]
        rw [hfindself]
        simp only [Option.map_some', Option.getD_some]
        have hbudget : fireBudget t (.ticker newf) = ((t - f.next) / f.d).toNat := by
          simp only [fireBudget, hnewnext, hnewd, ed]
          norm_num
        rw [hbudget]
        congr 1
        rw [show (m.setStore id (.ticker newf)).registry.erase id =
            m.registry.erase id from rfl]
        apply measure_congr_on
        intro j hj
        exact execute_find_ne hex ((hnd.mem_erase_iff).mp hj).1
      have key : ∀ x : Int, 0 ≤ x → x.toNat < (x + 1).toNat := by
        intro x hx
        omega
      rw [hm, hm2]
      exact Nat.add_lt_add_right (key _ e0) _

theorem goodState_terminates {t : Time} : ∀ (n : Nat) (m : Mock),
    m.fireMeasure t ≤ n → m.goodState →
    ∃ p, m.tickTrace t (n + 1) = some p := by
  intro n
  induction n with
  | zero =>
    intro m hle hg
    cases hstep : m.tickNext t with
    | done m2 => exact ⟨([], m2), tickTrace_done_step hstep⟩
    | blocked => exact absurd hstep (goodState_no_block hg)
    | fired ti m2 =>
      obtain ⟨-, hlt⟩ := fired_step_good hg hstep
      omega
  | succ n ih =>
    intro m hle hg
    cases hstep : m.tickNext t with
    | done m2 => exact ⟨([], m2), tickTrace_done_step hstep⟩
    | blocked => exact absurd hstep (goodState_no_block hg)
    | fired ti m2 =>
      obtain ⟨hg2, hlt⟩ := fired_step_good hg hstep
      obtain ⟨p2, hp2⟩ := ih m2 (by omega) hg2
      refine ⟨(ti :: p2.1, p2.2), ?_⟩
      rw [tickTrace_fired_step hstep, hp2]
      rfl

theorem zeroTicker_loop : ∀ (fuel : Nat) (n c t : Time) (buf : List Time)
    (drop : Nat), c ≤ t →
    (tickerMock n c 0 buf drop).tickTrace t fuel = none := by
  intro fuel
  induction fuel with
  | zero => intro n c t buf drop h; rfl
  | succ k ih =>
    intro n c t buf drop h
    cases buf with
    | nil =>
      rw [tickTrace_fired_step (tickerMock_tickNext_fire_empty n c 0 drop t h)]
      rw [show c + (0 : Int) = c from by ring]
      rw [ih n c t [c] drop h]
      rfl
    | cons v rest =>
      rw [tickTrace_fired_step (tickerMock_tickNext_fire n c 0 v rest drop t h)]
      rw [show c + (0 : Int) = c from by ring]
      rw [ih n c t (v :: rest) (drop + 1) h]
      rfl

theorem dueFoldStep_le (m : Mock) (acc : Time) (id : Nat) :
    acc ≤ dueFoldStep m acc id := by
  unfold dueFoldStep
  cases hf : m.find id with
  | none => exact le_refl acc
  | some e =>
    cases e with
    | timer f =>
      show acc ≤ if acc < f.due then f.due else acc
      by_cases hlt : acc < f.due
      · rw [if_pos hlt]; exact le_of_lt hlt
      · rw [if_neg hlt]
    | ticker f => exact le_refl acc

theorem foldl_due_ge_acc (m : Mock) : ∀ (l : List Nat) (acc : Time),
    acc ≤ l.foldl (dueFoldStep m) acc := by
  intro l
  induction l with
  | nil => intro acc; exact le_refl acc
  | cons a rest ih =>
    intro acc
    exact le_trans (dueFoldStep_le m acc a) (ih (dueFoldStep m acc a))

theorem foldl_due_ge_mem (m : Mock) : ∀ (l : List Nat) (acc : Time) (id : Nat),
    id ∈ l → ∀ f : FakeTimer, m.find id = some (.timer f) →
    f.due ≤ l.foldl (dueFoldStep m) acc := by
  intro l
  induction l with
  | nil => intro acc id h; simp at h
  | cons a rest ih =>
    intro acc id hmem f hf
    rcases List.mem_cons.mp hmem with rfl | h2
    · have h1 : f.due ≤ dueFoldStep m acc id := by
        unfold dueFoldStep
        rw [hf]
        show f.due ≤ if acc < f.due then f.due else acc
        by_cases hlt : acc < f.due
        · rw [if_pos hlt]
        · rw [if_neg hlt]; exact not_lt.mp hlt
      exact le_trans h1 (foldl_due_ge_acc m rest (dueFoldStep m acc id))
    · exact ih (dueFoldStep m acc a) id h2 f hf

theorem lastTimerDue_ge {m : Mock} {id : Nat} (hid : id ∈ m.registry)
    {f : FakeTimer} (hf : m.find id = some (.timer f)) :
    f.due ≤ m.lastTimerDue :=
  foldl_due_ge_mem m m.registry 0 id hid f hf

/-- C1: for a Timer created by NewTimer(D) on a fresh Mock and any
sequence of Forward calls with non-negative deltas, the final state is
`timerFired` (the due time delivered exactly once on the channel, the
timer stopped and deregistered) precisely when some Forward call happened
and the cumulative elapsed time is ≥ D, and `timerPending` (nothing
delivered, still registered) otherwise.  Because this holds for every
delta sequence, it holds for every prefix of a run, so the timer does not
fire while the cumulative sum is < D, fires exactly once at the first
Forward reaching D, and is never fired by later Forward calls. -/
theorem claim1_timer_fires_once (D : Int) (ds : List Int)
    (h : ∀ d ∈ ds, 0 ≤ d) :
    (NewMock.NewTimer D).2.forwardSeq 2 ds =
      some (if ds ≠ [] ∧ D ≤ ds.sum
            then timerFired (unixEpoch + ds.sum) (unixEpoch + D)
            else timerPending (unixEpoch + ds.sum) (unixEpoch + D)) := by
  have h0 : (NewMock.NewTimer D).2 = timerPending unixEpoch (unixEpoch + D) := rfl
  rw [h0, c1_aux (unixEpoch + D) ds unixEpoch h]
  refine congrArg some (if_congr ?_ rfl rfl)
  constructor
  · rintro ⟨h1, h2⟩; exact ⟨h1, by linarith⟩
  · rintro ⟨h1, h2⟩; exact ⟨h1, by linarith⟩

/-- C1 witness at D = 60 and deltas [59, 1]. -/
theorem claim1_witness :
    (∀ d ∈ ([59, 1] : List Int), 0 ≤ d) ∧
    (NewMock.NewTimer 60).2.forwardSeq 2 [59, 1] =
      some (if ([59, 1] : List Int) ≠ [] ∧ (60 : Int) ≤ ([59, 1] : List Int).sum
            then timerFired (unixEpoch + ([59, 1] : List Int).sum) (unixEpoch + 60)
            else timerPending (unixEpoch + ([59, 1] : List Int).sum) (unixEpoch + 60)) :=
  ⟨by decide, claim1_timer_fires_once 60 [59, 1] (by decide)⟩

/-- C3: the current time after a sequence of Forward calls that completes
is the starting time plus the sum of the deltas; the drains performed
while forwarding never change the current time (tickTrace preserves
`now`). -/
theorem claim3_forward_sum : ∀ (ds : List Int) (m m2 : Mock) (fuel : Nat),
    (∀ d ∈ ds, 0 ≤ d) → m.forwardSeq fuel ds = some m2 →
    m2.now = m.now + ds.sum := by
  intro ds
  induction ds with
  | nil =>
    intro m m2 fuel hnn h
    simp only [Mock.forwardSeq, Option.some.injEq] at h
    subst h
    simp
  | cons d ds ih =>
    intro m m2 fuel hnn h
    simp only [Mock.forwardSeq] at h
    cases hF : m.Forward d fuel with
    | none => rw [hF] at h; simp at h
    | some m1 =>
      rw [hF] at h
      have h1 := ih m1 m2 fuel (fun x hx => hnn x (List.mem_cons_of_mem d hx)) h
      rw [h1, forward_now hF]
      simp only [List.sum_cons]
      ring

/-- C3 witness: a fresh Mock forwarded by 3 then 4 ends at epoch + 7. -/
theorem claim3_witness :
    (∀ d ∈ ([3, 4] : List Int), 0 ≤ d) ∧
    NewMock.forwardSeq 1 [3, 4] =
      some { now := unixEpoch + 7, registry := [], store := [], nextId := 0 } ∧
    Mock.now { now := unixEpoch + 7, registry := [], store := [], nextId := 0 } =
      NewMock.now + ([3, 4] : List Int).sum :=
  ⟨by decide, by decide,
    claim3_forward_sum [3, 4] NewMock
      { now := unixEpoch + 7, registry := [], store := [], nextId := 0 } 1
      (by decide) (by decide)⟩

/-- C5: Stop on a fakeTimer returns true exactly when the timer was not
already stopped or fired; afterwards the timer is stopped and
deregistered, a second Stop returns false, and any later completed
Forward leaves the timer stopped, undelivered-to and deregistered — so
Stop returns true at most once and a stopped timer never fires. -/
theorem claim5_stop_once (m : Mock) (id : Nat) (f : FakeTimer)
    (hf : m.find id = some (.timer f)) (hnd : m.registry.Nodup) :
    (m.timerStop id).1 = !f.stopped ∧
    (m.timerStop id).2.find id = some (.timer { f with stopped := true }) ∧
    id ∉ (m.timerStop id).2.registry ∧
    ((m.timerStop id).2.timerStop id).1 = false ∧
    ∀ (d : Int) (fuel : Nat) (m2 : Mock),
      (m.timerStop id).2.Forward d fuel = some m2 →
      m2.find id = some (.timer { f with stopped := true }) ∧ id ∉ m2.registry := by
  rw [timerStop_spec m id f hf]
  have hfind2 : ((m.setStore id
      (.timer { f with stopped := true })).removeTimer id).find id =
      some (.timer { f with stopped := true }) := by
    simpa [Mock.find, Mock.setStore, Mock.removeTimer] using
      storeGet_set_self (.timer { f with stopped := true }) hf
  have hnotmem : id ∉ ((m.setStore id
      (.timer { f with stopped := true })).removeTimer id).registry := by
    show id ∉ m.registry.erase id
    exact hnd.not_mem_erase
  refine ⟨rfl, hfind2, hnotmem, ?_, ?_⟩
  · rw [timerStop_spec _ id _ hfind2]
    rfl
  · intro d fuel m2 hfw
    obtain ⟨h1, h2⟩ := forward_out hfw hnotmem
    exact ⟨by rw [h1]; exact hfind2, h2⟩

/-- C5 witness on a fresh timer. -/
theorem claim5_witness :
    ((NewMock.NewTimer 5).2.find 0 = some (.timer
      { hasChan := true, chBuf := [], fnCount := 0, due := unixEpoch + 5,
        stopped := false })) ∧
    (NewMock.NewTimer 5).2.registry.Nodup ∧
    (((NewMock.NewTimer 5).2.timerStop 0).1 = !(false : Bool) ∧
     ((NewMock.NewTimer 5).2.timerStop 0).2.find 0 = some (.timer
       { hasChan := true, chBuf := [], fnCount := 0, due := unixEpoch + 5,
         stopped := true }) ∧
     0 ∉ ((NewMock.NewTimer 5).2.timerStop 0).2.registry ∧
     (((NewMock.NewTimer 5).2.timerStop 0).2.timerStop 0).1 = false ∧
     ∀ (d : Int) (fuel : Nat) (m2 : Mock),
       ((NewMock.NewTimer 5).2.timerStop 0).2.Forward d fuel = some m2 →
       m2.find 0 = some (.timer
         { hasChan := true, chBuf := [], fnCount := 0, due := unixEpoch + 5,
           stopped := true }) ∧ 0 ∉ m2.registry) :=
  ⟨by decide, by decide,
    claim5_stop_once (NewMock.NewTimer 5).2 0
      { hasChan := true, chBuf := [], fnCount := 0, due := unixEpoch + 5,
        stopped := false } (by decide) (by decide)⟩

/-- C6 counterexample: the claim's fires-exactly-one-more-time clause,
asserted for every Timer, fails for a fired channel timer whose delivered
value was never consumed: Reset(0) does return false, clear the stopped
flag and re-register the timer, but the subsequent Forward does not fire
it one more time — the refire's blocking send `f.ch <- f.due` finds the
capacity-1 channel still full, the drain step is blocked, and the Forward
call never completes (no fuel makes it return, and nothing is
delivered). -/
theorem claim6_counterexample :
    ((NewMock.NewTimer 0).2.Forward 0 2 = some (timerFired unixEpoch unixEpoch)) ∧
    ((timerFired unixEpoch unixEpoch).timerReset 0 0 = (false, resetAfterFire)) ∧
    resetAfterFire.tickNext resetAfterFire.now = .blocked ∧
    resetAfterFire.Forward 0 3 = none :=
  ⟨by decide, by decide, by decide, by decide⟩

/-- C6 amended: Reset(d) moves the due time to now + d and returns true
exactly when the timer was active before the call; a stopped or fired
timer is reactivated (stopped flag cleared) and re-registered.  The
re-registered timer is fired exactly one more time by a subsequent
Forward(d) whenever its delivery cannot block, namely for every AfterFunc
(callback) timer — callback count 1 → 2, then stopped and deregistered
again — and for every channel timer whose channel is empty at the refire:
one that was stopped before firing, or one that fired and whose delivered
value was consumed; then the refire delivers exactly the one new due time
and ends stopped and deregistered.  (A fired channel timer left undrained
blocks instead, per the counterexample.) -/
theorem claim6_reset_semantics (m : Mock) (id : Nat) (f : FakeTimer) (d : Int)
    (hf : m.find id = some (.timer f)) :
    (m.timerReset id d).1 = !f.stopped ∧
    (m.timerReset id d).2.find id =
      some (.timer { f with due := m.now + d, stopped := false }) ∧
    (f.stopped = true → (m.timerReset id d).2.registry = m.registry ++ [id]) ∧
    (f.stopped = false → (m.timerReset id d).2.registry = m.registry) ∧
    (∀ D d2 : Int,
      ((NewMock.AfterFunc D).2.Forward D 2 =
        some (fnFired (unixEpoch + D) (unixEpoch + D) 1)) ∧
      ((fnFired (unixEpoch + D) (unixEpoch + D) 1).timerReset 0 d2 =
        (false, fnPending (unixEpoch + D) (unixEpoch + D + d2) 1)) ∧
      ((fnPending (unixEpoch + D) (unixEpoch + D + d2) 1).Forward d2 2 =
        some (fnFired (unixEpoch + D + d2) (unixEpoch + D + d2) 2))) ∧
    (∀ n u d2 : Int,
      ((timerFired n u).recvTimer 0 = some (u, timerInert n u)) ∧
      ((timerPending n u).timerStop 0 = (true, timerInert n u)) ∧
      ((timerInert n u).timerReset 0 d2 = (false, timerPending n (n + d2))) ∧
      ((timerPending n (n + d2)).Forward d2 2 =
        some (timerFired (n + d2) (n + d2)))) := by
  rw [timerReset_spec m id f d hf]
  refine ⟨rfl, ?_, ?_, ?_, ?_, ?_⟩
  · by_cases hstop : f.stopped = true
    · rw [if_pos hstop]
      have : ((m.setStore id
          (.timer { f with due := m.now + d, stopped := false })).addReg id).find id =
          some (.timer { f with due := m.now + d, stopped := false }) := by
        simpa [Mock.find, Mock.setStore, Mock.addReg] using
          storeGet_set_self (.timer { f with due := m.now + d, stopped := false }) hf
      exact this
    · rw [if_neg hstop]
      have hsf : f.stopped = false := by simpa using hstop
      have h1 : (m.setStore id (.timer { f with due := m.now + d })).find id =
          some (.timer { f with due := m.now + d }) := by
        simpa [Mock.find, Mock.setStore] using
          storeGet_set_self (.timer { f with due := m.now + d }) hf
      rw [h1]
      cases f
      simp only at hsf
      simp [hsf]
  · intro hstop
    rw [if_pos hstop]
    rfl
  · intro hstop
    rw [if_neg (by simp [hstop])]
    rfl
  · intro D d2
    refine ⟨?_, fnFired_reset (unixEpoch + D) (unixEpoch + D) 1 d2, ?_⟩
    · have h0 : (NewMock.AfterFunc D).2 = fnPending unixEpoch (unixEpoch + D) 0 := rfl
      rw [h0, fnPending_forward, if_pos (le_refl (unixEpoch + D))]
    · rw [fnPending_forward, if_pos (le_refl (unixEpoch + D + d2))]
  · intro n u d2
    refine ⟨timerFired_recv n u, timerPending_stop n u, timerInert_reset n u d2, ?_⟩
    rw [timerPending_forward, if_pos (le_refl (n + d2))]

/-- C6 witness on an active fresh timer, with the refire scenarios
(AfterFunc and drained/stopped channel timer) contained in the
conclusion. -/
theorem claim6_witness :
    ((NewMock.NewTimer 5).2.find 0 = some (.timer
      { hasChan := true, chBuf := [], fnCount := 0, due := unixEpoch + 5,
        stopped := false })) ∧
    (((NewMock.NewTimer 5).2.timerReset 0 7).1 = !(false : Bool) ∧
     ((NewMock.NewTimer 5).2.timerReset 0 7).2.find 0 = some (.timer
       { hasChan := true, chBuf := [], fnCount := 0,
         due := (NewMock.NewTimer 5).2.now + 7, stopped := false }) ∧
     ((false : Bool) = true →
       ((NewMock.NewTimer 5).2.timerReset 0 7).2.registry =
         (NewMock.NewTimer 5).2.registry ++ [0]) ∧
     ((false : Bool) = false →
       ((NewMock.NewTimer 5).2.timerReset 0 7).2.registry =
         (NewMock.NewTimer 5).2.registry) ∧
     (∀ D d2 : Int,
       ((NewMock.AfterFunc D).2.Forward D 2 =
         some (fnFired (unixEpoch + D) (unixEpoch + D) 1)) ∧
       ((fnFired (unixEpoch + D) (unixEpoch + D) 1).timerReset 0 d2 =
         (false, fnPending (unixEpoch + D) (unixEpoch + D + d2) 1)) ∧
       ((fnPending (unixEpoch + D) (unixEpoch + D + d2) 1).Forward d2 2 =
         some (fnFired (unixEpoch + D + d2) (unixEpoch + D + d2) 2))) ∧
     (∀ n u d2 : Int,
       ((timerFired n u).recvTimer 0 = some (u, timerInert n u)) ∧
       ((timerPending n u).timerStop 0 = (true, timerInert n u)) ∧
       ((timerInert n u).timerReset 0 d2 = (false, timerPending n (n + d2))) ∧
       ((timerPending n (n + d2)).Forward d2 2 =
         some (timerFired (n + d2) (n + d2))))) :=
  ⟨by decide,
    claim6_reset_semantics (NewMock.NewTimer 5).2 0
      { hasChan := true, chBuf := [], fnCount := 0, due := unixEpoch + 5,
        stopped := false } 7 (by decide)⟩

/-- C10: the value a fired channel Timer delivers is its scheduled due
time (creation time + D), not the current time at firing: after NewTimer(D)
and Forward(E) with E > D, the channel buffer holds epoch + D while the
clock reads epoch + E (and the two differ).  A Ticker likewise delivers
its pre-advance nextFireTime: after NewTicker(I) and Forward(I), the
buffer holds epoch + I while the ticker's next fire time has already
advanced to epoch + 2I. -/
theorem claim10_delivered_value (D E I : Int) (hDE : D < E) (hI : 0 < I) :
    ((NewMock.NewTimer D).2.Forward E 2 =
      some (timerFired (unixEpoch + E) (unixEpoch + D))) ∧
    unixEpoch + D ≠ unixEpoch + E ∧
    ((NewMock.NewTicker I).2.Forward I 2 =
      some (tickerMock (unixEpoch + I) (unixEpoch + I + I) I [unixEpoch + I] 0)) := by
  refine ⟨?_, fun hc => absurd (add_left_cancel hc) (ne_of_lt hDE), ?_⟩
  · have h0 : (NewMock.NewTimer D).2 = timerPending unixEpoch (unixEpoch + D) := rfl
    rw [h0, timerPending_forward]
    rw [if_pos (by linarith : unixEpoch + D ≤ unixEpoch + E)]
  · have h0 : (NewMock.NewTicker I).2 = tickerMock unixEpoch (unixEpoch + I) I [] 0 :=
      rfl
    rw [h0, tickerMock_forward_one unixEpoch I hI]

/-- C2: whenever a drain (one Forward/Set) completes, and the spec's
ticker contract holds (non-negative intervals; the spec requires positive
ones), the fire times selected by the successive tickNext steps are
non-decreasing — all due Executers fire in ascending next-fire-time
order — and the loop stops exactly when nothing due is left: every
Executer still registered at the end, including a ticker that rescheduled
itself during this very drain, has its next execution strictly after the
deadline, so anything rescheduled to a time ≤ the deadline was fired
again in the same drain. -/
theorem claim2_drain_order (m m2 : Mock) (t : Time) (fuel : Nat)
    (tr : List Time) (hwf : m.wfTickers)
    (h : m.tickTrace t fuel = some (tr, m2)) :
    List.Chain' (· ≤ ·) tr ∧
    (∀ j ∈ m2.registry, ∀ e, m2.find j = some e → t < e.nextExecution) :=
  ⟨tickTrace_chain_all hwf h, tickTrace_exit h⟩

/-- C2 witness: one timer due at 10 and one ticker of interval 3 starting
at 3, drained to deadline 10: firing order [3, 6, 9, 10], and the only
survivor (the ticker) is rescheduled past the deadline. -/
theorem claim2_witness :
    c2Start.wfTickers ∧
    c2Start.tickTrace 10 10 = some ([3, 6, 9, 10], c2Final) ∧
    (List.Chain' (· ≤ ·) [(3 : Int), 6, 9, 10] ∧
     (∀ j ∈ c2Final.registry, ∀ e, c2Final.find j = some e →
       (10 : Int) < e.nextExecution)) :=
  ⟨by decide, by decide,
    claim2_drain_order c2Start c2Final 10 10 [3, 6, 9, 10] (by decide) (by decide)⟩

/-- C4: for a Ticker with interval I > 0 on a fresh Mock, never stopped:
(a) N rounds of Forward(I) each followed by a consumer receive deliver
exactly the N tick values epoch + I, ..., epoch + N*I with no drops and
leave the next fire time at epoch + (N+1)*I (the consumer keeping up);
(b) a single Forward(N*I) with no consumer fires the ticker exactly N
times (the trace is those same N fire times, of length N by
tickTimes_length), advances the next fire time by N*I to epoch + (N+1)*I,
delivers only the first tick into the capacity-1 buffer and drops the
other N - 1. -/
theorem claim4_ticker_fires (I : Int) (hI : 0 < I) (N : Nat) :
    (tickerRounds I N (NewMock.NewTicker I).2 =
      some (tickTimes (unixEpoch + I) I N,
            tickerMock (unixEpoch + (N : Int) * I) (unixEpoch + (N : Int) * I + I)
              I [] 0)) ∧
    ((NewMock.NewTicker I).2.forwardTrace ((N : Int) * I) (N + 1) =
      some (tickTimes (unixEpoch + I) I N,
            tickerMock (unixEpoch + (N : Int) * I) (unixEpoch + ((N : Int) + 1) * I)
              I (if N = 0 then [] else [unixEpoch + I]) (N - 1))) := by
  constructor
  · exact tickerRounds_spec I hI N unixEpoch
  · exact c4b_aux I hI N unixEpoch

/-- C4 witness at I = 2, N = 3. -/
theorem claim4_witness :
    (0 : Int) < 2 ∧
    ((tickerRounds 2 3 (NewMock.NewTicker 2).2 =
       some (tickTimes (unixEpoch + 2) 2 3,
             tickerMock (unixEpoch + (3 : Nat) * 2) (unixEpoch + (3 : Nat) * 2 + 2)
               2 [] 0)) ∧
     ((NewMock.NewTicker 2).2.forwardTrace ((3 : Nat) * 2) (3 + 1) =
       some (tickTimes (unixEpoch + 2) 2 3,
             tickerMock (unixEpoch + (3 : Nat) * 2) (unixEpoch + ((3 : Nat) + 1) * 2)
               2 (if (3 : Nat) = 0 then [] else [unixEpoch + 2]) (3 - 1)))) :=
  ⟨by decide, claim4_ticker_fires 2 (by decide) 3⟩

/-- C7 counterexample: the claim fails as stated.  With no consumer, after
NewTimer(0), Forward(0) (the timer fires, leaving its value in the
capacity-1 channel) and Reset(0) (re-registering the timer with its
channel still full), the next Forward never returns: the drain step is
`blocked` — the blocking send `f.ch <- f.due` in fakeTimer.Execute finds
the buffer full — and Forward yields no result at any fuel. -/
theorem claim7_counterexample :
    (((NewMock.NewTimer 0).2.Forward 0 2).map (fun m1 => (m1.timerReset 0 0).2) =
      some resetAfterFire) ∧
    resetAfterFire.tickNext unixEpoch = .blocked ∧
    resetAfterFire.Forward 0 5 = none ∧
    resetAfterFire.Forward 0 1000 = none :=
  ⟨by decide, by decide, by decide, by decide⟩

/-- C7 amended: in any state with unique registrations in which every
registered Executer is unstopped, every registered channel timer holds no
undelivered value, and every registered ticker has a positive interval —
the states the engine maintains as long as Reset is never applied to an
already-fired, undrained channel timer — the engine never blocks: no
drain step's channel send finds the buffer full (timer sends find
capacity, ticker sends are non-blocking try-sends), and every Forward and
Set call terminates (sufficient fuel makes it return a state). -/
theorem claim7_amended (m : Mock) (hg : m.goodState) (d t : Time) :
    (∃ fuel m2, m.Forward d fuel = some m2) ∧
    (∃ fuel m2, m.Set t fuel = some m2) := by
  constructor
  · have hg2 : Mock.goodState { m with now := m.now + d } := hg
    obtain ⟨p, hp⟩ := goodState_terminates
      (Mock.fireMeasure { m with now := m.now + d } (m.now + d))
      { m with now := m.now + d } (le_refl _) hg2
    refine ⟨Mock.fireMeasure { m with now := m.now + d } (m.now + d) + 1, p.2, ?_⟩
    unfold Mock.Forward Mock.tick
    rw [hp]
    rfl
  · have hg2 : Mock.goodState { m with now := t } := hg
    obtain ⟨p, hp⟩ := goodState_terminates
      (Mock.fireMeasure { m with now := t } t)
      { m with now := t } (le_refl _) hg2
    refine ⟨Mock.fireMeasure { m with now := t } t + 1, p.2, ?_⟩
    unfold Mock.Set Mock.tick
    rw [hp]
    rfl

/-- C7 witness: a fresh Mock holding one pending channel timer and one
ticker of interval 2 is a good state, so Forward(5) and Set(3) both
terminate. -/
theorem claim7_witness :
    Mock.goodState (((NewMock.NewTimer 1).2.NewTicker 2).2) ∧
    ((∃ fuel m2, (((NewMock.NewTimer 1).2.NewTicker 2).2).Forward 5 fuel = some m2) ∧
     (∃ fuel m2, (((NewMock.NewTimer 1).2.NewTicker 2).2).Set 3 fuel = some m2)) :=
  ⟨by decide, claim7_amended (((NewMock.NewTimer 1).2.NewTicker 2).2) (by decide) 5 3⟩

/-- C8: contrary to the claim, Mock.NewTicker performs no validation of
its interval: NewTicker(0) on a fresh Mock silently returns a registered
ticker (registry [0], interval 0, next fire time = current time) instead
of failing fast, and the next Forward past that time never terminates —
the ticker re-fires forever because its next fire time never moves past
the deadline, exhausting any finite fuel. -/
theorem claim8_no_validation :
    (NewMock.NewTicker 0).2.registry = [0] ∧
    (NewMock.NewTicker 0).2.find 0 = some (.ticker
      { chBuf := [], dropped := 0, d := 0, next := unixEpoch, stopped := false }) ∧
    ∀ fuel : Nat, (NewMock.NewTicker 0).2.Forward 1 fuel = none := by
  refine ⟨rfl, by decide, fun fuel => ?_⟩
  have h0 : (NewMock.NewTicker 0).2 = tickerMock unixEpoch (unixEpoch + 0) 0 [] 0 :=
    rfl
  rw [h0, forward_eq_forwardTrace, tickerMock_forwardTrace]
  rw [zeroTicker_loop fuel (unixEpoch + 1) (unixEpoch + 0) (unixEpoch + 1) [] 0
    (by norm_num)]
  rfl

/-- C9 counterexample: the claim's monotonicity clause fails.  On a fresh
Mock (no registered timers) RunUntilDone seeds its maximum with the zero
value of `var last time.Time` — Go's zero time, year 1 — and Sets the
clock there: the current time moves backward from the Unix epoch to 0. -/
theorem claim9_counterexample :
    NewMock.RunUntilDone 1 =
      some { now := 0, registry := [], store := [], nextId := 0 } ∧
    NewMock.now = unixEpoch ∧ (0 : Int) < unixEpoch :=
  ⟨by decide, rfl, by decide⟩

/-- C9 amended: RunUntilDone sets the current time to the maximum of Go's
zero time and the registered fakeTimers' NextExecution values (tickers
excluded), and drains; afterwards no fakeTimer remains registered — every
pending one-shot timer has fired.  The resulting time equals that
maximum, which can be earlier than the time before the call (for example
when no fakeTimer is registered). -/
theorem claim9_amended (m m2 : Mock) (fuel : Nat) (hnd : m.registry.Nodup)
    (h : m.RunUntilDone fuel = some m2) :
    m2.now = m.lastTimerDue ∧
    ∀ (id : Nat) (f : FakeTimer),
      m2.find id = some (.timer f) → id ∉ m2.registry := by
  have h2 : m.Set m.lastTimerDue fuel = some m2 := h
  obtain ⟨tr, htr⟩ := set_dest h2
  constructor
  · exact tickTrace_now htr
  · intro id f hf hmem
    have hnd2 : (Mock.registry { m with now := m.lastTimerDue }).Nodup := hnd
    have h1 : Mock.find { m with now := m.lastTimerDue } id = some (.timer f) :=
      tickTrace_timer_entry htr hnd2 hmem hf
    have hreg : id ∈ Mock.registry { m with now := m.lastTimerDue } :=
      tickTrace_registry_sub htr hmem
    have h3 : f.due ≤ m.lastTimerDue := lastTimerDue_ge hreg h1
    have h4 := tickTrace_exit htr id hmem _ hf
    simp only [ExecData.nextExecution] at h4
    linarith

/-- C9 amended witness: one timer due at epoch + 5; afterwards the clock
reads the timer's due time and no timer remains registered. -/
theorem claim9_witness :
    (NewMock.NewTimer 5).2.registry.Nodup ∧
    (NewMock.NewTimer 5).2.RunUntilDone 2 = some c9Final ∧
    (c9Final.now = (NewMock.NewTimer 5).2.lastTimerDue ∧
     ∀ (id : Nat) (f : FakeTimer),
       c9Final.find id = some (.timer f) → id ∉ c9Final.registry) :=
  ⟨by decide, by decide,
    claim9_amended (NewMock.NewTimer 5).2 c9Final 2 (by decide) (by decide)⟩

/-- C10 witness at D = 1, E = 2, I = 3. -/
theorem claim10_witness :
    ((1 : Int) < 2 ∧ (0 : Int) < 3) ∧
    (((NewMock.NewTimer 1).2.Forward 2 2 =
       some (timerFired (unixEpoch + 2) (unixEpoch + 1))) ∧
     unixEpoch + 1 ≠ unixEpoch + 2 ∧
     ((NewMock.NewTicker 3).2.Forward 3 2 =
       some (tickerMock (unixEpoch + 3) (unixEpoch + 3 + 3) 3 [unixEpoch + 3] 0))) :=
  ⟨⟨by decide, by decide⟩, claim10_delivered_value 1 2 3 (by decide) (by decide)⟩

end ClockMock
